import Mathlib

/-!
Verification of the sliding-puzzle engine embedded in
`src/webprog/src/SlidingPuzzle.js`.

Boards are flat lists of naturals of length `n * n`; value `0` is the blank.
The React component state (`size`, `tiles`, `moves`, `time`, `running`,
`message`, `highScores`) is embedded as an explicit record `GameState`, and
each handler becomes a state-transition function.  The win message (a template
string in the source) is embedded as the pair of numbers it reports:
`(final move count, elapsed seconds)`.  Randomness (`Math.random`) is embedded
as an explicit stream of naturals supplied to the shuffle, and the unbounded
rejection-sampling loop of `shuffleToSolvable` takes explicit fuel and returns
`Option`.
-/

set_option maxRecDepth 100000

namespace SlidingPuzzle

/-- `makeSolved n` from the source: `arr[i] = (i + 1) % (n * n)`, so the board
reads `1, 2, ..., n*n - 1, 0`. -/
def makeSolved (n : Nat) : List Nat :=
  (List.range (n * n)).map (fun i => (i + 1) % (n * n))

/-- `isSolved arr` from the source: every index before the last holds `i + 1`
and the last index holds `0`.  The JS code reads `arr[arr.length - 1]`, which
is `undefined` for the empty array, so the empty array is not solved. -/
def isSolved (arr : List Nat) : Bool :=
  ((List.range (arr.length - 1)).all fun i => arr.getD i 0 == i + 1) &&
    (match arr.getLast? with
     | some v => v == 0
     | none => false)

/-- `inversionCount arr` from the source: filter the blank out, then run the
double loop `for i; for j = i+1` counting pairs with `nums[i] > nums[j]`. -/
def inversionCount (arr : List Nat) : Nat :=
  let nums := arr.filter (fun v => v != 0)
  (List.range nums.length).foldl
    (fun inv i =>
      (List.range' (i + 1) (nums.length - (i + 1))).foldl
        (fun inv2 j => if nums.getD j 0 < nums.getD i 0 then inv2 + 1 else inv2)
        inv)
    0

/-- `isSolvable arr n` from the source: parity rule on the inversion count,
using the blank's row from the bottom when `n` is even. -/
def isSolvable (arr : List Nat) (n : Nat) : Bool :=
  let inv := inversionCount arr
  if n % 2 == 1 then
    inv % 2 == 0
  else
    let blankIndex := arr.indexOf 0
    let rowFromTop := blankIndex / n + 1
    let rowFromBottom := n - rowFromTop + 1
    if rowFromBottom % 2 == 0 then inv % 2 == 1 else inv % 2 == 0

/-- The component state of `SlidingPuzzleApp`.  `message` is the reported
`(final move count, elapsed seconds)` of the win banner, `none` when blank. -/
structure GameState where
  size : Nat
  tiles : List Nat
  moves : Nat
  time : Nat
  running : Bool
  message : Option (Nat × Nat)
  highScores : Nat → Option Nat

/-- `indexToPos` from the source: `(Math.floor(idx / size), idx % size)`. -/
def indexToPos (size idx : Nat) : Nat × Nat :=
  (idx / size, idx % size)

/-- `posToIndex` from the source: `r * size + c`. -/
def posToIndex (size r c : Nat) : Nat :=
  r * size + c

/-- `canSwap i j` from the source: Manhattan distance between the two cell
positions is exactly 1.  `Math.abs` of the JS number difference is the
absolute value of the integer difference. -/
def canSwap (size i j : Nat) : Bool :=
  let a := indexToPos size i
  let b := indexToPos size j
  (((a.1 : Int) - b.1).natAbs + ((a.2 : Int) - b.2).natAbs) == 1

/-- The destructuring swap `[next[i], next[j]] = [next[j], next[i]]`: both old
values are read, then written back crosswise. -/
def swapList (l : List Nat) (i j : Nat) : List Nat :=
  (l.set i (l.getD j 0)).set j (l.getD i 0)

/-- `onWin` from the source, applied to the state captured by the handler's
closure (so `moves` is the pre-increment counter): stop running, report
`moves + 1` and the elapsed time, and update the high score of the current
size when none is stored or the new count is strictly smaller. -/
def onWin (s : GameState) : GameState :=
  let finalMoves := s.moves + 1
  let better : Bool :=
    match s.highScores s.size with
    | none => true
    | some v => finalMoves < v
  { s with
    running := false
    message := some (finalMoves, s.time)
    highScores :=
      if better then
        fun k => if k = s.size then some finalMoves else s.highScores k
      else s.highScores }

/-- `handleTileClick i` from the source: ignore the click unless running;
swap with the blank when adjacent, bump the counter, and fire `onWin` when the
new board is solved. -/
def handleTileClick (s : GameState) (i : Nat) : GameState :=
  if !s.running then s
  else
    let blank := s.tiles.indexOf 0
    if canSwap s.size i blank then
      let next := swapList s.tiles i blank
      if isSolved next then
        { onWin s with tiles := next, moves := s.moves + 1 }
      else
        { s with tiles := next, moves := s.moves + 1 }
    else s

/-- The four directional inputs of `moveByDirection`. -/
inductive Direction
  | up
  | down
  | left
  | right
deriving DecidableEq

/-- `moveByDirection` from the source: offset the blank's cell by one in the
given direction, ignore the input when the target leaves the grid, otherwise
click the target cell. -/
def moveByDirection (s : GameState) (d : Direction) : GameState :=
  let blank := s.tiles.indexOf 0
  let r : Int := (blank / s.size : Nat)
  let c : Int := (blank % s.size : Nat)
  let target : Int × Int :=
    match d with
    | .up => (r - 1, c)
    | .down => (r + 1, c)
    | .left => (r, c - 1)
    | .right => (r, c + 1)
  if target.1 < 0 || (s.size : Int) ≤ target.1 ||
      target.2 < 0 || (s.size : Int) ≤ target.2 then s
  else handleTileClick s (target.1 * s.size + target.2).toNat

/-- Keyboard inputs; `other` stands for any key outside the arrow keys. -/
inductive Key
  | arrowUp
  | arrowDown
  | arrowLeft
  | arrowRight
  | other
deriving DecidableEq

/-- `onKey` from the source: ignore keys unless running, then translate the
arrow keys through `keyMap` (ArrowUp ↦ "down", ArrowDown ↦ "up",
ArrowLeft ↦ "right", ArrowRight ↦ "left") into `moveByDirection`. -/
def onKey (s : GameState) (k : Key) : GameState :=
  if !s.running then s
  else
    match k with
    | .arrowUp => moveByDirection s .down
    | .arrowDown => moveByDirection s .up
    | .arrowLeft => moveByDirection s .right
    | .arrowRight => moveByDirection s .left
    | .other => s

/-- One second of the interval timer: advances `time` only while running. -/
def tick (s : GameState) : GameState :=
  if s.running then { s with time := s.time + 1 } else s

/-- `resetBoard` from the source, with the freshly generated board passed
explicitly (the source draws it from `shuffleToSolvable`). -/
def resetBoard (s : GameState) (b : List Nat) : GameState :=
  { s with moves := 0, time := 0, message := none, running := false, tiles := b }

/-- `startGame` from the source: replace the board only when it is already
solved, zero the counters, and start running. -/
def startGame (s : GameState) (b : List Nat) : GameState :=
  let s1 := if isSolved s.tiles then { s with tiles := b } else s
  { s1 with moves := 0, time := 0, message := none, running := true }

/-- `restart` from the source: `resetBoard` followed by `setRunning(true)`. -/
def restart (s : GameState) (b : List Nat) : GameState :=
  { resetBoard s b with running := true }

/-- The Fisher-Yates loop of `shuffleToSolvable`: for `i` from the last index
down to 1, swap position `i` with position `r i % (i + 1)`; the stream `r`
stands for the draws of `Math.random`, reduced modulo `i + 1` so that every
index `≤ i` is realizable, exactly as `Math.floor(Math.random() * (i + 1))`. -/
def fyAux (r : Nat → Nat) : List Nat → Nat → List Nat
  | arr, 0 => arr
  | arr, i + 1 => fyAux r (swapList arr (i + 1) (r (i + 1) % (i + 2))) i

/-- One pass of the shuffle body: Fisher-Yates applied to a fresh solved
board. -/
def shuffleOnce (n : Nat) (r : Nat → Nat) : List Nat :=
  fyAux r (makeSolved n) (n * n - 1)

/-- `shuffleToSolvable` from the source: repeat the shuffle until the result
is solvable and not already solved.  The do-while loop is given explicit fuel
(one unit per iteration) and a stream of randomness per iteration; `none`
models the loop still spinning. -/
def shuffleToSolvable (n : Nat) (rs : Nat → Nat → Nat) : Nat → Option (List Nat)
  | 0 => none
  | fuel + 1 =>
    let arr := shuffleOnce n (rs fuel)
    if isSolvable arr n && !isSolved arr then some arr
    else shuffleToSolvable n rs fuel

/-- The input events the component reacts to: a pointer click on cell `i`, a
key press, or a timer tick. -/
inductive Event
  | click (i : Nat)
  | key (k : Key)
  | tickEv

/-- Dispatch of one event to its handler. -/
def stepEvent (s : GameState) : Event → GameState
  | .click i => handleTileClick s i
  | .key k => onKey s k
  | .tickEv => tick s

/-- Process a sequence of events in order. -/
def runEvents (s : GameState) : List Event → GameState
  | [] => s
  | e :: es => runEvents (stepEvent s e) es

/-- Events the UI can actually deliver: tile clicks carry an index of an
existing cell (the tile buttons are rendered from the board itself). -/
def eventValid (n : Nat) : Event → Prop
  | .click i => i < n * n
  | .key _ => True
  | .tickEv => True

/-- Number of accepted moves in an event sequence: an event is accepted
exactly when it changed the move counter. -/
def acceptedCount (s : GameState) : List Event → Nat
  | [] => 0
  | e :: es =>
    (if (stepEvent s e).moves == s.moves then 0 else 1) +
      acceptedCount (stepEvent s e) es

/-- Spec-side inversion count, following the spec's words: the number of
ordered pairs of positions `(i, j)`, `i < j`, of the tile sequence with the
blank removed where the value at `i` exceeds the value at `j`. -/
def specInversions (arr : List Nat) : Nat :=
  let nums := arr.filter (fun v => v != 0)
  (Finset.filter
      (fun p : Nat × Nat => p.1 < p.2 ∧ nums.getD p.2 0 < nums.getD p.1 0)
      (Finset.range nums.length ×ˢ Finset.range nums.length)).card

/-! ### Basic lemmas about `swapList` -/

theorem getD_cons_set_perm (x : Nat) (xs : List Nat) (j : Nat) (h : j < xs.length) :
    (xs.getD j 0 :: xs.set j x).Perm (x :: xs) := by
  induction xs generalizing j with
  | nil => simp at h
  | cons y ys ih =>
    cases j with
    | zero => simpa using List.Perm.swap x y ys
    | succ j =>
      have hj : j < ys.length := by simpa using h
      have h1 : (ys.getD j 0 :: y :: ys.set j x).Perm (y :: ys.getD j 0 :: ys.set j x) :=
        List.Perm.swap y (ys.getD j 0) (ys.set j x)
      have h2 : (y :: ys.getD j 0 :: ys.set j x).Perm (y :: x :: ys) := (ih j hj).cons y
      have h3 : (y :: x :: ys).Perm (x :: y :: ys) := List.Perm.swap x y ys
      simpa using (h1.trans h2).trans h3

theorem swapList_perm (l : List Nat) (i j : Nat) (hi : i < l.length) (hj : j < l.length) :
    (swapList l i j).Perm l := by
  induction l generalizing i j with
  | nil => simp at hi
  | cons x xs ih =>
    cases i with
    | zero =>
      cases j with
      | zero =>
        have he : swapList (x :: xs) 0 0 = x :: xs := by simp [swapList]
        rw [he]
      | succ j =>
        have hj2 : j < xs.length := by simpa using hj
        have he : swapList (x :: xs) 0 (j + 1) = xs.getD j 0 :: xs.set j x := by
          simp [swapList]
        rw [he]
        exact getD_cons_set_perm x xs j hj2
    | succ i =>
      cases j with
      | zero =>
        have hi2 : i < xs.length := by simpa using hi
        have he : swapList (x :: xs) (i + 1) 0 = xs.getD i 0 :: xs.set i x := by
          simp [swapList]
        rw [he]
        exact getD_cons_set_perm x xs i hi2
      | succ j =>
        have he : swapList (x :: xs) (i + 1) (j + 1) = x :: swapList xs i j := by
          simp [swapList]
        rw [he]
        exact (ih i j (by simpa using hi) (by simpa using hj)).cons x

theorem swapList_length (l : List Nat) (i j : Nat) :
    (swapList l i j).length = l.length := by
  simp [swapList]

theorem swapList_getD_fst (l : List Nat) (i j : Nat) (hij : j ≠ i) (hi : i < l.length) :
    (swapList l i j).getD i 0 = l.getD j 0 := by
  have h1 : i < ((l.set i (l.getD j 0)).set j (l.getD i 0)).length := by simpa using hi
  unfold swapList
  rw [List.getD_eq_getElem _ _ h1, List.getElem_set_ne hij, List.getElem_set]
  simp

theorem swapList_getD_snd (l : List Nat) (i j : Nat) (hj : j < l.length) :
    (swapList l i j).getD j 0 = l.getD i 0 := by
  have h1 : j < ((l.set i (l.getD j 0)).set j (l.getD i 0)).length := by simpa using hj
  unfold swapList
  rw [List.getD_eq_getElem _ _ h1, List.getElem_set]
  simp

theorem swapList_getD_other (l : List Nat) (i j k : Nat) (h1 : i ≠ k) (h2 : j ≠ k) :
    (swapList l i j).getD k 0 = l.getD k 0 := by
  unfold swapList
  rw [List.getD_eq_getElem?_getD, List.getElem?_set_ne h2, List.getElem?_set_ne h1,
    List.getD_eq_getElem?_getD]

/-! ### Basic lemmas about `makeSolved` and `isSolved` -/

theorem makeSolved_length (n : Nat) : (makeSolved n).length = n * n := by
  simp [makeSolved]

theorem makeSolved_getD (n i : Nat) (h : i < n * n) :
    (makeSolved n).getD i 0 = (i + 1) % (n * n) := by
  have h2 : i < (makeSolved n).length := by rwa [makeSolved_length]
  rw [List.getD_eq_getElem _ _ h2]
  simp [makeSolved]

theorem makeSolved_perm_range (n : Nat) : (makeSolved n).Perm (List.range (n * n)) := by
  rcases Nat.eq_zero_or_pos (n * n) with hz | hp
  · rw [makeSolved, hz]
    simp
  · have hsq : n * n = (n * n - 1) + 1 := by omega
    have hsplit : makeSolved n =
        (List.range (n * n - 1)).map (fun i => (i + 1) % (n * n)) ++ [0] := by
      rw [makeSolved, hsq, List.range_succ, List.map_append]
      simp [Nat.sub_add_cancel hp]
    have hmap : (List.range (n * n - 1)).map (fun i => (i + 1) % (n * n)) =
        (List.range (n * n - 1)).map Nat.succ := by
      apply List.map_congr_left
      intro i hi
      rw [List.mem_range] at hi
      exact Nat.mod_eq_of_lt (by omega)
    rw [hsplit, hmap]
    have hperm := List.perm_append_singleton 0 ((List.range (n * n - 1)).map Nat.succ)
    have hr : 0 :: (List.range (n * n - 1)).map Nat.succ = List.range (n * n) := by
      rw [← List.range_succ_eq_map, ← hsq]
    rw [hr] at hperm
    exact hperm

theorem isSolved_iff_forall (arr : List Nat) :
    isSolved arr = true ↔
      ((∀ i, i < arr.length - 1 → arr.getD i 0 = i + 1) ∧ arr.getLast? = some 0) := by
  unfold isSolved
  cases h : arr.getLast? with
  | none => simp [h]
  | some v =>
    simp only [h, Bool.and_eq_true, List.all_eq_true, List.mem_range, beq_iff_eq,
      Option.some.injEq]

theorem isSolved_eq_makeSolved (arr : List Nat) (n : Nat) (hn : 1 ≤ n)
    (hl : arr.length = n * n) :
    isSolved arr = true ↔ arr = makeSolved n := by
  have hpos : 0 < n * n := Nat.mul_pos hn hn
  rw [isSolved_iff_forall]
  constructor
  · rintro ⟨h1, h2⟩
    apply List.ext_getElem (by rw [hl, makeSolved_length])
    intro k hk1 hk2
    have hk : k < n * n := by rwa [hl] at hk1
    have hgetD : arr.getD k 0 = (makeSolved n).getD k 0 → arr[k] = (makeSolved n)[k] := by
      rw [List.getD_eq_getElem _ _ hk1, List.getD_eq_getElem _ _ hk2]
      exact id
    apply hgetD
    rw [makeSolved_getD n k hk]
    by_cases hlast : k = n * n - 1
    · have hlen : 0 < arr.length := by omega
      rw [List.getLast?_eq_getElem?, List.getElem?_eq_getElem (by omega)] at h2
      have h0 : arr[arr.length - 1] = 0 := by
        have := Option.some.inj h2
        exact this
      have hkk : k = arr.length - 1 := by omega
      have : arr.getD k 0 = 0 := by
        rw [List.getD_eq_getElem _ _ hk1]
        subst hkk
        exact h0
      rw [this]
      have : k + 1 = n * n := by omega
      rw [this, Nat.mod_self]
    · have hklt : k < arr.length - 1 := by omega
      rw [h1 k hklt]
      have : k + 1 < n * n := by omega
      rw [Nat.mod_eq_of_lt this]
  · rintro rfl
    constructor
    · intro i hi
      rw [makeSolved_length] at hi
      rw [makeSolved_getD n i (by omega)]
      exact Nat.mod_eq_of_lt (by omega)
    · have hlen : (makeSolved n).length = n * n := makeSolved_length n
      rw [List.getLast?_eq_getElem?, List.getElem?_eq_getElem (by omega)]
      have : (makeSolved n)[(makeSolved n).length - 1] =
          (makeSolved n).getD ((makeSolved n).length - 1) 0 := by
        rw [List.getD_eq_getElem]
      rw [this, hlen, makeSolved_getD n (n * n - 1) (by omega)]
      rw [Nat.sub_add_cancel hpos, Nat.mod_self]

theorem isSolved_makeSolved (n : Nat) (hn : 1 ≤ n) : isSolved (makeSolved n) = true := by
  rw [isSolved_eq_makeSolved (makeSolved n) n hn (makeSolved_length n)]

/-! ### Claim C5 -/

/-- C5: `isSolved board` returns true iff the value at every index except the
last equals `i + 1` and the last value is `0`, i.e. iff the board equals the
canonical solved sequence for its dimension. -/
theorem isSolved_iff_canonical_solved (arr : List Nat) (n : Nat) (hn : 1 ≤ n)
    (hl : arr.length = n * n) :
    (isSolved arr = true ↔
      ((∀ i, i < arr.length - 1 → arr.getD i 0 = i + 1) ∧ arr.getLast? = some 0)) ∧
    (isSolved arr = true ↔ arr = makeSolved n) :=
  ⟨isSolved_iff_forall arr, isSolved_eq_makeSolved arr n hn hl⟩

/-- C5 witness: the claim evaluated on the solved 2×2 board. -/
theorem isSolved_iff_canonical_solved_witness :
    1 ≤ 2 ∧ ([1, 2, 3, 0] : List Nat).length = 2 * 2 ∧
    ((isSolved [1, 2, 3, 0] = true ↔
      ((∀ i, i < ([1, 2, 3, 0] : List Nat).length - 1 →
        ([1, 2, 3, 0] : List Nat).getD i 0 = i + 1) ∧
        ([1, 2, 3, 0] : List Nat).getLast? = some 0)) ∧
     (isSolved [1, 2, 3, 0] = true ↔ ([1, 2, 3, 0] : List Nat) = makeSolved 2)) :=
  ⟨by decide, by decide, isSolved_iff_canonical_solved [1, 2, 3, 0] 2 (by decide) (by decide)⟩

/-! ### Claim C9 -/

/-- C9: while the running flag is false, both a tile click and a key press are
silent no-ops: the whole state is returned unchanged and no error is
signaled. -/
theorem not_running_noop (s : GameState) (i : Nat) (k : Key)
    (h : s.running = false) :
    handleTileClick s i = s ∧ onKey s k = s := by
  constructor
  · unfold handleTileClick
    rw [h]
    simp
  · unfold onKey
    rw [h]
    simp

/-- A concrete idle state used to witness C9. -/
def sIdle : GameState :=
  { size := 3, tiles := [1, 2, 3, 4, 5, 6, 7, 8, 0], moves := 5, time := 7,
    running := false, message := none, highScores := fun _ => none }

/-- C9 witness: a click and a key press on a concrete non-running state. -/
theorem not_running_noop_witness :
    sIdle.running = false ∧ handleTileClick sIdle 5 = sIdle ∧ onKey sIdle Key.arrowUp = sIdle :=
  ⟨rfl, (not_running_noop sIdle 5 Key.arrowUp rfl).1,
    (not_running_noop sIdle 5 Key.arrowUp rfl).2⟩

/-! ### Claim C8 -/

/-- The concrete n = 3 scenario state of the spec's end-to-end test. -/
def sC8 : GameState :=
  { size := 3, tiles := [1, 2, 3, 4, 5, 6, 0, 7, 8], moves := 0, time := 0,
    running := true, message := none, highScores := fun _ => none }

/-- C8: from board `[1,2,3,4,5,6,0,7,8]` (n = 3, blank at index 6), the
directional move "up" targets index 3 (the cell directly above the blank,
holding 4) and yields `[1,2,3,0,5,6,4,7,8]` with one move counted and the
board not solved. -/
theorem scenario_n3_up_move :
    moveByDirection sC8 Direction.up = handleTileClick sC8 3 ∧
    (moveByDirection sC8 Direction.up).tiles = [1, 2, 3, 0, 5, 6, 4, 7, 8] ∧
    (moveByDirection sC8 Direction.up).moves = 1 ∧
    isSolved (moveByDirection sC8 Direction.up).tiles = false :=
  ⟨rfl, rfl, rfl, rfl⟩

/-! ### Branch lemmas for `handleTileClick` -/

theorem handleTileClick_accept (s : GameState) (i : Nat) (hrun : s.running = true)
    (hcs : canSwap s.size i (s.tiles.indexOf 0) = true) :
    (handleTileClick s i).tiles = swapList s.tiles i (s.tiles.indexOf 0) ∧
    (handleTileClick s i).moves = s.moves + 1 ∧
    (handleTileClick s i).size = s.size ∧
    (handleTileClick s i).time = s.time := by
  unfold handleTileClick
  simp only [hrun, hcs, Bool.not_true, Bool.false_eq_true, if_false, if_true]
  split
  · simp [onWin]
  · simp

theorem handleTileClick_not_running (s : GameState) (i : Nat) (h : s.running = false) :
    handleTileClick s i = s := by
  unfold handleTileClick
  simp [h]

theorem onKey_not_running (s : GameState) (k : Key) (h : s.running = false) :
    onKey s k = s := by
  unfold onKey
  simp [h]

theorem handleTileClick_reject (s : GameState) (i : Nat)
    (hcs : canSwap s.size i (s.tiles.indexOf 0) = false) :
    handleTileClick s i = s := by
  unfold handleTileClick
  rcases Bool.eq_false_or_eq_true s.running with h | h <;> simp [h, hcs]

theorem handleTileClick_win (s : GameState) (i : Nat) (hrun : s.running = true)
    (hcs : canSwap s.size i (s.tiles.indexOf 0) = true)
    (hsol : isSolved (swapList s.tiles i (s.tiles.indexOf 0)) = true) :
    handleTileClick s i =
      { onWin s with
        tiles := swapList s.tiles i (s.tiles.indexOf 0)
        moves := s.moves + 1 } := by
  unfold handleTileClick
  simp [hrun, hcs, hsol]

/-! ### Claim C3 -/

/-- C3: a tile click on cell `i` is accepted iff the Manhattan distance `d`
between the cell of `i` and the cell of the blank `b` is exactly 1; on
acceptance the values at `i` and `b` are exchanged, every other cell keeps its
value and the move counter grows by exactly 1; otherwise the call leaves the
whole state unchanged (a silent no-op). -/
theorem handleTileClick_swap_frame (s : GameState) (n i b d : Nat)
    (hrun : s.running = true) (hsize : s.size = n)
    (hlen : s.tiles.length = n * n) (hmem : 0 ∈ s.tiles) (hi : i < n * n)
    (hbdef : b = s.tiles.indexOf 0)
    (hddef : d = (((i / n : Nat) : Int) - ((b / n : Nat) : Int)).natAbs +
      (((i % n : Nat) : Int) - ((b % n : Nat) : Int)).natAbs) :
    (d = 1 →
      (handleTileClick s i).tiles.getD i 0 = s.tiles.getD b 0 ∧
      (handleTileClick s i).tiles.getD b 0 = s.tiles.getD i 0 ∧
      (∀ k, k < n * n → k ≠ i → k ≠ b →
        (handleTileClick s i).tiles.getD k 0 = s.tiles.getD k 0) ∧
      (handleTileClick s i).moves = s.moves + 1) ∧
    (d ≠ 1 → handleTileClick s i = s) := by
  have hblen : b < s.tiles.length := by
    rw [hbdef]
    exact List.indexOf_lt_length.2 hmem
  have hilen : i < s.tiles.length := by rwa [hlen]
  have hcanSwap : canSwap s.size i (s.tiles.indexOf 0) = (d == 1) := by
    rw [hsize, ← hbdef, hddef]
    rfl
  constructor
  · intro hd
    have hne : i ≠ b := by
      intro he
      rw [hddef, he] at hd
      simp at hd
    have hcs : canSwap s.size i (s.tiles.indexOf 0) = true := by
      rw [hcanSwap, hd]
      rfl
    obtain ⟨ht, hm, _, _⟩ := handleTileClick_accept s i hrun hcs
    rw [← hbdef] at ht
    refine ⟨?_, ?_, ?_, hm⟩
    · rw [ht]
      exact swapList_getD_fst s.tiles i b (Ne.symm hne) hilen
    · rw [ht]
      exact swapList_getD_snd s.tiles i b hblen
    · intro k _ hki hkb
      rw [ht]
      exact swapList_getD_other s.tiles i b k (fun he => hki he.symm) (fun he => hkb he.symm)
  · intro hd
    apply handleTileClick_reject
    rw [hcanSwap]
    simpa using hd

/-- A concrete running state one move away from solved, used to witness C3. -/
def sC3 : GameState :=
  { size := 3, tiles := [1, 2, 3, 4, 5, 6, 7, 0, 8], moves := 0, time := 0,
    running := true, message := none, highScores := fun _ => none }

/-- C3 witness: clicking cell 8 next to the blank at cell 7 of `sC3`. -/
theorem handleTileClick_swap_frame_witness :
    sC3.running = true ∧ (7 : Nat) = sC3.tiles.indexOf 0 ∧
    ((1 = 1 →
      (handleTileClick sC3 8).tiles.getD 8 0 = sC3.tiles.getD 7 0 ∧
      (handleTileClick sC3 8).tiles.getD 7 0 = sC3.tiles.getD 8 0 ∧
      (∀ k, k < 3 * 3 → k ≠ 8 → k ≠ 7 →
        (handleTileClick sC3 8).tiles.getD k 0 = sC3.tiles.getD k 0) ∧
      (handleTileClick sC3 8).moves = sC3.moves + 1) ∧
    ((1 : Nat) ≠ 1 → handleTileClick sC3 8 = sC3)) :=
  ⟨rfl, by decide,
    handleTileClick_swap_frame sC3 3 8 7 1 rfl rfl (by decide) (by decide)
      (by decide) (by decide) (by decide)⟩

/-! ### Directional moves -/

theorem moveByDirection_down_eq (s : GameState) (n b r c : Nat)
    (hsize : s.size = n) (hbdef : b = s.tiles.indexOf 0)
    (hr : r = b / n) (hc : c = b % n) (hrn : r < n) (hcn : c < n) :
    moveByDirection s Direction.down =
      if r + 1 < n then handleTileClick s ((r + 1) * n + c) else s := by
  have hb2 : s.tiles.indexOf 0 = b := hbdef.symm
  unfold moveByDirection
  rw [hb2, hsize]
  simp only []
  rw [← hr, ← hc]
  by_cases h : r + 1 < n
  · have hcond : (decide ((r : Int) + 1 < 0) || decide ((n : Int) ≤ (r : Int) + 1) ||
        decide ((c : Int) < 0) || decide ((n : Int) ≤ (c : Int))) = false := by
      have h1 : ¬((r : Int) + 1 < 0) := by omega
      have h2 : ¬((n : Int) ≤ (r : Int) + 1) := by omega
      have h3 : ¬((c : Int) < 0) := by omega
      have h4 : ¬((n : Int) ≤ (c : Int)) := by omega
      simp [h1, h2, h3, h4]
    rw [hcond]
    have h5 : ((r : Int) + 1) * (n : Int) + (c : Int) = (((r + 1) * n + c : Nat) : Int) := by
      push_cast
      ring
    rw [h5, Int.toNat_natCast, if_neg (by simp), if_pos h]
  · have hcond : (decide ((r : Int) + 1 < 0) || decide ((n : Int) ≤ (r : Int) + 1) ||
        decide ((c : Int) < 0) || decide ((n : Int) ≤ (c : Int))) = true := by
      have h2 : (n : Int) ≤ (r : Int) + 1 := by omega
      simp [h2]
    rw [hcond, if_pos rfl, if_neg h]

theorem moveByDirection_up_eq (s : GameState) (n b r c : Nat)
    (hsize : s.size = n) (hbdef : b = s.tiles.indexOf 0)
    (hr : r = b / n) (hc : c = b % n) (hrn : r < n) (hcn : c < n) :
    moveByDirection s Direction.up =
      if 1 ≤ r then handleTileClick s ((r - 1) * n + c) else s := by
  have hb2 : s.tiles.indexOf 0 = b := hbdef.symm
  unfold moveByDirection
  rw [hb2, hsize]
  simp only []
  rw [← hr, ← hc]
  by_cases h : 1 ≤ r
  · have hcond : (decide ((r : Int) - 1 < 0) || decide ((n : Int) ≤ (r : Int) - 1) ||
        decide ((c : Int) < 0) || decide ((n : Int) ≤ (c : Int))) = false := by
      have h1 : ¬((r : Int) - 1 < 0) := by omega
      have h2 : ¬((n : Int) ≤ (r : Int) - 1) := by omega
      have h3 : ¬((c : Int) < 0) := by omega
      have h4 : ¬((n : Int) ≤ (c : Int)) := by omega
      simp [h1, h2, h3, h4]
    rw [hcond]
    have h5 : ((r : Int) - 1) * (n : Int) + (c : Int) = (((r - 1) * n + c : Nat) : Int) := by
      push_cast [Nat.cast_sub h]
      ring
    rw [h5, Int.toNat_natCast, if_neg (by simp), if_pos h]
  · have hcond : (decide ((r : Int) - 1 < 0) || decide ((n : Int) ≤ (r : Int) - 1) ||
        decide ((c : Int) < 0) || decide ((n : Int) ≤ (c : Int))) = true := by
      have h2 : (r : Int) - 1 < 0 := by omega
      simp [h2]
    rw [hcond, if_pos rfl, if_neg h]

theorem moveByDirection_right_eq (s : GameState) (n b r c : Nat)
    (hsize : s.size = n) (hbdef : b = s.tiles.indexOf 0)
    (hr : r = b / n) (hc : c = b % n) (hrn : r < n) (hcn : c < n) :
    moveByDirection s Direction.right =
      if c + 1 < n then handleTileClick s (r * n + (c + 1)) else s := by
  have hb2 : s.tiles.indexOf 0 = b := hbdef.symm
  unfold moveByDirection
  rw [hb2, hsize]
  simp only []
  rw [← hr, ← hc]
  by_cases h : c + 1 < n
  · have hcond : (decide ((r : Int) < 0) || decide ((n : Int) ≤ (r : Int)) ||
        decide ((c : Int) + 1 < 0) || decide ((n : Int) ≤ (c : Int) + 1)) = false := by
      have h1 : ¬((r : Int) < 0) := by omega
      have h2 : ¬((n : Int) ≤ (r : Int)) := by omega
      have h3 : ¬((c : Int) + 1 < 0) := by omega
      have h4 : ¬((n : Int) ≤ (c : Int) + 1) := by omega
      simp [h1, h2, h3, h4]
    rw [hcond]
    have h5 : (r : Int) * (n : Int) + ((c : Int) + 1) = ((r * n + (c + 1) : Nat) : Int) := by
      push_cast
      ring
    rw [h5, Int.toNat_natCast, if_neg (by simp), if_pos h]
  · have hcond : (decide ((r : Int) < 0) || decide ((n : Int) ≤ (r : Int)) ||
        decide ((c : Int) + 1 < 0) || decide ((n : Int) ≤ (c : Int) + 1)) = true := by
      have h2 : (n : Int) ≤ (c : Int) + 1 := by omega
      simp [h2]
    rw [hcond, if_pos rfl, if_neg h]

theorem moveByDirection_left_eq (s : GameState) (n b r c : Nat)
    (hsize : s.size = n) (hbdef : b = s.tiles.indexOf 0)
    (hr : r = b / n) (hc : c = b % n) (hrn : r < n) (hcn : c < n) :
    moveByDirection s Direction.left =
      if 1 ≤ c then handleTileClick s (r * n + (c - 1)) else s := by
  have hb2 : s.tiles.indexOf 0 = b := hbdef.symm
  unfold moveByDirection
  rw [hb2, hsize]
  simp only []
  rw [← hr, ← hc]
  by_cases h : 1 ≤ c
  · have hcond : (decide ((r : Int) < 0) || decide ((n : Int) ≤ (r : Int)) ||
        decide ((c : Int) - 1 < 0) || decide ((n : Int) ≤ (c : Int) - 1)) = false := by
      have h1 : ¬((r : Int) < 0) := by omega
      have h2 : ¬((n : Int) ≤ (r : Int)) := by omega
      have h3 : ¬((c : Int) - 1 < 0) := by omega
      have h4 : ¬((n : Int) ≤ (c : Int) - 1) := by omega
      simp [h1, h2, h3, h4]
    rw [hcond]
    have h5 : (r : Int) * (n : Int) + ((c : Int) - 1) = ((r * n + (c - 1) : Nat) : Int) := by
      push_cast [Nat.cast_sub h]
      ring
    rw [h5, Int.toNat_natCast, if_neg (by simp), if_pos h]
  · have hcond : (decide ((r : Int) < 0) || decide ((n : Int) ≤ (r : Int)) ||
        decide ((c : Int) - 1 < 0) || decide ((n : Int) ≤ (c : Int) - 1)) = true := by
      have h2 : (c : Int) - 1 < 0 := by omega
      simp [h2]
    rw [hcond, if_pos rfl, if_neg h]

/-! ### Claim C7 -/

/-- C7: while running, pressing the up key checks the cell below the blank as
the swap target, down the cell above, left the cell to the right, right the
cell to the left; a target outside the grid makes the key press a no-op. -/
theorem arrow_keys_target_mapping (s : GameState) (n b r c : Nat)
    (hsize : s.size = n) (hrun : s.running = true)
    (hbdef : b = s.tiles.indexOf 0) (hb : b < n * n)
    (hrdef : r = b / n) (hcdef : c = b % n) :
    (onKey s Key.arrowUp = if r + 1 < n then handleTileClick s ((r + 1) * n + c) else s) ∧
    (onKey s Key.arrowDown = if 1 ≤ r then handleTileClick s ((r - 1) * n + c) else s) ∧
    (onKey s Key.arrowLeft = if c + 1 < n then handleTileClick s (r * n + (c + 1)) else s) ∧
    (onKey s Key.arrowRight = if 1 ≤ c then handleTileClick s (r * n + (c - 1)) else s) := by
  have hn : 0 < n := by
    rcases Nat.eq_zero_or_pos n with h | h
    · rw [h] at hb
      simp at hb
    · exact h
  have hrn : r < n := by
    rw [hrdef]
    exact (Nat.div_lt_iff_lt_mul hn).2 hb
  have hcn : c < n := by
    rw [hcdef]
    exact Nat.mod_lt b hn
  refine ⟨?_, ?_, ?_, ?_⟩
  · have hk : onKey s Key.arrowUp = moveByDirection s Direction.down := by
      simp [onKey, hrun]
    rw [hk, moveByDirection_down_eq s n b r c hsize hbdef hrdef hcdef hrn hcn]
  · have hk : onKey s Key.arrowDown = moveByDirection s Direction.up := by
      simp [onKey, hrun]
    rw [hk, moveByDirection_up_eq s n b r c hsize hbdef hrdef hcdef hrn hcn]
  · have hk : onKey s Key.arrowLeft = moveByDirection s Direction.right := by
      simp [onKey, hrun]
    rw [hk, moveByDirection_right_eq s n b r c hsize hbdef hrdef hcdef hrn hcn]
  · have hk : onKey s Key.arrowRight = moveByDirection s Direction.left := by
      simp [onKey, hrun]
    rw [hk, moveByDirection_left_eq s n b r c hsize hbdef hrdef hcdef hrn hcn]

/-- A concrete running state with the blank at row 2, column 0, used to
witness C7. -/
def sC7 : GameState :=
  { size := 3, tiles := [1, 2, 3, 4, 5, 6, 0, 7, 8], moves := 0, time := 0,
    running := true, message := none, highScores := fun _ => none }

/-- C7 witness: the four arrow keys on `sC7` (blank at index 6, row 2,
column 0): up and right fall outside the grid, down targets the cell above,
left the cell to the right. -/
theorem arrow_keys_target_mapping_witness :
    sC7.running = true ∧ (6 : Nat) = sC7.tiles.indexOf 0 ∧
    ((onKey sC7 Key.arrowUp =
        if 2 + 1 < 3 then handleTileClick sC7 ((2 + 1) * 3 + 0) else sC7) ∧
     (onKey sC7 Key.arrowDown =
        if 1 ≤ 2 then handleTileClick sC7 ((2 - 1) * 3 + 0) else sC7) ∧
     (onKey sC7 Key.arrowLeft =
        if 0 + 1 < 3 then handleTileClick sC7 (2 * 3 + (0 + 1)) else sC7) ∧
     (onKey sC7 Key.arrowRight =
        if 1 ≤ 0 then handleTileClick sC7 (2 * 3 + (0 - 1)) else sC7)) :=
  ⟨rfl, by decide,
    arrow_keys_target_mapping sC7 3 6 2 0 rfl rfl (by decide) (by decide)
      (by decide) (by decide)⟩

/-! ### The shuffle produces permutations -/

theorem fyAux_perm (r : Nat → Nat) (i : Nat) :
    ∀ arr : List Nat, i < arr.length → (fyAux r arr i).Perm arr := by
  induction i with
  | zero =>
    intro arr _
    exact List.Perm.refl _
  | succ i ih =>
    intro arr h
    have hj : r (i + 1) % (i + 2) < arr.length := by
      have : r (i + 1) % (i + 2) < i + 2 := Nat.mod_lt _ (by omega)
      omega
    have hswap := swapList_perm arr (i + 1) (r (i + 1) % (i + 2)) h hj
    have hlen : (swapList arr (i + 1) (r (i + 1) % (i + 2))).length = arr.length :=
      swapList_length _ _ _
    have ihp := ih (swapList arr (i + 1) (r (i + 1) % (i + 2))) (by omega)
    show (fyAux r (swapList arr (i + 1) (r (i + 1) % (i + 2))) i).Perm arr
    exact ihp.trans hswap

theorem shuffleOnce_perm (n : Nat) (r : Nat → Nat) (hn : 1 ≤ n) :
    (shuffleOnce n r).Perm (makeSolved n) := by
  unfold shuffleOnce
  apply fyAux_perm
  rw [makeSolved_length]
  have : 1 ≤ n * n := Nat.mul_pos hn hn
  omega

theorem shuffleToSolvable_perm (n fuel : Nat) (rs : Nat → Nat → Nat) (b : List Nat)
    (hn : 1 ≤ n) (hgen : shuffleToSolvable n rs fuel = some b) :
    b.Perm (List.range (n * n)) := by
  induction fuel with
  | zero => simp [shuffleToSolvable] at hgen
  | succ fuel ih =>
    unfold shuffleToSolvable at hgen
    simp only [] at hgen
    by_cases hcase : (isSolvable (shuffleOnce n (rs fuel)) n &&
        !isSolved (shuffleOnce n (rs fuel))) = true
    · rw [if_pos hcase] at hgen
      have hb : b = shuffleOnce n (rs fuel) := (Option.some.inj hgen).symm
      rw [hb]
      exact (shuffleOnce_perm n (rs fuel) hn).trans (makeSolved_perm_range n)
    · rw [if_neg hcase] at hgen
      exact ih hgen

theorem shuffleToSolvable_guard (n fuel : Nat) (rs : Nat → Nat → Nat) (b : List Nat)
    (hgen : shuffleToSolvable n rs fuel = some b) :
    isSolvable b n = true ∧ isSolved b = false := by
  induction fuel with
  | zero => simp [shuffleToSolvable] at hgen
  | succ fuel ih =>
    unfold shuffleToSolvable at hgen
    simp only [] at hgen
    by_cases hcase : (isSolvable (shuffleOnce n (rs fuel)) n &&
        !isSolved (shuffleOnce n (rs fuel))) = true
    · rw [if_pos hcase] at hgen
      have hb : b = shuffleOnce n (rs fuel) := (Option.some.inj hgen).symm
      rw [Bool.and_eq_true] at hcase
      obtain ⟨h1, h2⟩ := hcase
      rw [Bool.not_eq_true'] at h2
      rw [hb]
      exact ⟨h1, h2⟩
    · rw [if_neg hcase] at hgen
      exact ih hgen

/-! ### Claim C4 -/

/-- C4: whenever the rejection-sampling generator returns a board for
dimension n ≥ 2, that board has length n², is a permutation of
{0, ..., n²−1}, satisfies `isSolvable`, and is not the solved board. -/
theorem generate_solvable_not_solved (n fuel : Nat) (rs : Nat → Nat → Nat)
    (b : List Nat) (hn : 2 ≤ n) (hgen : shuffleToSolvable n rs fuel = some b) :
    b.length = n * n ∧ b.Perm (List.range (n * n)) ∧
    isSolvable b n = true ∧ isSolved b = false ∧ b ≠ makeSolved n := by
  have hperm := shuffleToSolvable_perm n fuel rs b (by omega) hgen
  obtain ⟨hsolv, hnsolved⟩ := shuffleToSolvable_guard n fuel rs b hgen
  refine ⟨?_, hperm, hsolv, hnsolved, ?_⟩
  · rw [hperm.length_eq, List.length_range]
  · intro he
    rw [he, isSolved_makeSolved n (by omega)] at hnsolved
    exact absurd hnsolved (by simp)

/-- C4 witness: with dimension 2, the all-zero randomness stream and one unit
of fuel the generator returns `[2, 3, 0, 1]`. -/
theorem generate_solvable_not_solved_witness :
    2 ≤ 2 ∧ shuffleToSolvable 2 (fun _ _ => 0) 1 = some [2, 3, 0, 1] ∧
    (([2, 3, 0, 1] : List Nat).length = 2 * 2 ∧
      ([2, 3, 0, 1] : List Nat).Perm (List.range (2 * 2)) ∧
      isSolvable [2, 3, 0, 1] 2 = true ∧ isSolved [2, 3, 0, 1] = false ∧
      ([2, 3, 0, 1] : List Nat) ≠ makeSolved 2) :=
  ⟨by decide, rfl,
    generate_solvable_not_solved 2 1 (fun _ _ => 0) [2, 3, 0, 1] (by decide) rfl⟩

/-! ### Step lemmas for the event loop -/

theorem handleTileClick_cases (s : GameState) (i : Nat) :
    handleTileClick s i = s ∨
    (s.running = true ∧ canSwap s.size i (s.tiles.indexOf 0) = true ∧
      (handleTileClick s i).tiles = swapList s.tiles i (s.tiles.indexOf 0) ∧
      (handleTileClick s i).moves = s.moves + 1 ∧
      (handleTileClick s i).size = s.size ∧
      (handleTileClick s i).time = s.time) := by
  rcases Bool.eq_false_or_eq_true s.running with h | h
  · by_cases hcs : canSwap s.size i (s.tiles.indexOf 0) = true
    · obtain ⟨h1, h2, h3, h4⟩ := handleTileClick_accept s i h hcs
      exact Or.inr ⟨h, hcs, h1, h2, h3, h4⟩
    · exact Or.inl (handleTileClick_reject s i (Bool.eq_false_iff.mpr hcs))
  · exact Or.inl (handleTileClick_not_running s i h)

theorem tick_fields (s : GameState) :
    (tick s).tiles = s.tiles ∧ (tick s).size = s.size ∧ (tick s).moves = s.moves := by
  unfold tick
  split <;> simp

theorem cell_index_bound (r c n : Nat) (hr : r < n) (hc : c < n) :
    r * n + c < n * n :=
  calc r * n + c < r * n + n := by omega
    _ = (r + 1) * n := by ring
    _ ≤ n * n := Nat.mul_le_mul_right n hr

theorem stepEvent_perm (s : GameState) (n : Nat) (e : Event) (hn : 1 ≤ n)
    (hsize : s.size = n) (hperm : s.tiles.Perm (List.range (n * n)))
    (hval : eventValid n e) :
    (stepEvent s e).tiles.Perm (List.range (n * n)) ∧ (stepEvent s e).size = n := by
  have hnn : 0 < n * n := Nat.mul_pos hn hn
  have hmem : 0 ∈ s.tiles := hperm.mem_iff.2 (List.mem_range.2 hnn)
  have hlen : s.tiles.length = n * n := by rw [hperm.length_eq, List.length_range]
  have hblank : s.tiles.indexOf 0 < s.tiles.length := List.indexOf_lt_length.2 hmem
  have hclick : ∀ t, t < n * n →
      (handleTileClick s t).tiles.Perm (List.range (n * n)) ∧
      (handleTileClick s t).size = n := by
    intro t ht
    rcases handleTileClick_cases s t with hcase | ⟨_, _, h1, _, h3, _⟩
    · rw [hcase]
      exact ⟨hperm, hsize⟩
    · refine ⟨?_, by rw [h3, hsize]⟩
      rw [h1]
      exact (swapList_perm s.tiles t _ (by omega) hblank).trans hperm
  cases e with
  | click i => exact hclick i hval
  | tickEv =>
    obtain ⟨h1, h2, _⟩ := tick_fields s
    show (tick s).tiles.Perm _ ∧ (tick s).size = n
    rw [h1, h2]
    exact ⟨hperm, hsize⟩
  | key k =>
    show (onKey s k).tiles.Perm _ ∧ (onKey s k).size = n
    rcases Bool.eq_false_or_eq_true s.running with hrun | hrunF
    case inr =>
      rw [onKey_not_running s k hrunF]
      exact ⟨hperm, hsize⟩
    case inl =>
      have hb : s.tiles.indexOf 0 < n * n := by omega
      have hrn : s.tiles.indexOf 0 / n < n := (Nat.div_lt_iff_lt_mul hn).2 hb
      have hcn : s.tiles.indexOf 0 % n < n := Nat.mod_lt _ hn
      cases k with
      | other =>
        have hk : onKey s Key.other = s := by simp [onKey, hrun]
        rw [hk]
        exact ⟨hperm, hsize⟩
      | arrowUp =>
        have hk : onKey s Key.arrowUp = moveByDirection s Direction.down := by
          simp [onKey, hrun]
        rw [hk, moveByDirection_down_eq s n (s.tiles.indexOf 0) (s.tiles.indexOf 0 / n)
          (s.tiles.indexOf 0 % n) hsize rfl rfl rfl hrn hcn]
        by_cases h : s.tiles.indexOf 0 / n + 1 < n
        · rw [if_pos h]
          exact hclick _ (cell_index_bound _ _ n h hcn)
        · rw [if_neg h]
          exact ⟨hperm, hsize⟩
      | arrowDown =>
        have hk : onKey s Key.arrowDown = moveByDirection s Direction.up := by
          simp [onKey, hrun]
        rw [hk, moveByDirection_up_eq s n (s.tiles.indexOf 0) (s.tiles.indexOf 0 / n)
          (s.tiles.indexOf 0 % n) hsize rfl rfl rfl hrn hcn]
        by_cases h : 1 ≤ s.tiles.indexOf 0 / n
        · rw [if_pos h]
          exact hclick _ (cell_index_bound _ _ n (by omega) hcn)
        · rw [if_neg h]
          exact ⟨hperm, hsize⟩
      | arrowLeft =>
        have hk : onKey s Key.arrowLeft = moveByDirection s Direction.right := by
          simp [onKey, hrun]
        rw [hk, moveByDirection_right_eq s n (s.tiles.indexOf 0) (s.tiles.indexOf 0 / n)
          (s.tiles.indexOf 0 % n) hsize rfl rfl rfl hrn hcn]
        by_cases h : s.tiles.indexOf 0 % n + 1 < n
        · rw [if_pos h]
          exact hclick _ (cell_index_bound _ _ n hrn h)
        · rw [if_neg h]
          exact ⟨hperm, hsize⟩
      | arrowRight =>
        have hk : onKey s Key.arrowRight = moveByDirection s Direction.left := by
          simp [onKey, hrun]
        rw [hk, moveByDirection_left_eq s n (s.tiles.indexOf 0) (s.tiles.indexOf 0 / n)
          (s.tiles.indexOf 0 % n) hsize rfl rfl rfl hrn hcn]
        by_cases h : 1 ≤ s.tiles.indexOf 0 % n
        · rw [if_pos h]
          exact hclick _ (cell_index_bound _ _ n hrn (by omega))
        · rw [if_neg h]
          exact ⟨hperm, hsize⟩

theorem runEvents_perm (n : Nat) (es : List Event) (hn : 1 ≤ n) :
    ∀ s : GameState, s.size = n → s.tiles.Perm (List.range (n * n)) →
      (∀ e ∈ es, eventValid n e) →
      (runEvents s es).tiles.Perm (List.range (n * n)) ∧ (runEvents s es).size = n := by
  induction es with
  | nil =>
    intro s h1 h2 _
    exact ⟨h2, h1⟩
  | cons e es ih =>
    intro s h1 h2 hv
    have hstep := stepEvent_perm s n e hn h1 h2 (hv e (by simp))
    exact ih (stepEvent s e) hstep.2 hstep.1 (fun e2 he2 => hv e2 (by simp [he2]))

/-! ### Claim C10 -/

/-- C10: every board reachable through the engine's operations — a board
produced by the generator followed by any sequence of UI events (clicks on
existing cells, key presses, timer ticks) — is a permutation of
{0, ..., n²−1} of length n² containing the blank 0 exactly once. -/
theorem reachable_boards_are_permutations (n fuel : Nat) (rs : Nat → Nat → Nat)
    (b : List Nat) (s : GameState) (es : List Event) (hn : 1 ≤ n)
    (hgen : shuffleToSolvable n rs fuel = some b)
    (hsize : s.size = n) (htiles : s.tiles = b)
    (hval : ∀ e ∈ es, eventValid n e) :
    (runEvents s es).tiles.length = n * n ∧
    (runEvents s es).tiles.Perm (List.range (n * n)) ∧
    (runEvents s es).tiles.count 0 = 1 := by
  have hperm0 : s.tiles.Perm (List.range (n * n)) := by
    rw [htiles]
    exact shuffleToSolvable_perm n fuel rs b hn hgen
  obtain ⟨hp, _⟩ := runEvents_perm n es hn s hsize hperm0 hval
  refine ⟨by rw [hp.length_eq, List.length_range], hp, ?_⟩
  rw [hp.count_eq]
  exact List.count_eq_one_of_mem (List.nodup_range (n * n))
    (List.mem_range.2 (Nat.mul_pos hn hn))

/-- A concrete running state holding a generated 2×2 board, to witness C10. -/
def sC10 : GameState :=
  { size := 2, tiles := [2, 3, 0, 1], moves := 0, time := 0,
    running := true, message := none, highScores := fun _ => none }

/-- The concrete event sequence used to witness C10. -/
def esC10 : List Event := [Event.click 0, Event.key Key.arrowUp, Event.tickEv]

/-- C10 witness: a generated 2×2 board followed by a click, a key press and a
tick. -/
theorem reachable_boards_are_permutations_witness :
    1 ≤ 2 ∧ shuffleToSolvable 2 (fun _ _ => 0) 1 = some [2, 3, 0, 1] ∧
    ((runEvents sC10 esC10).tiles.length = 2 * 2 ∧
     (runEvents sC10 esC10).tiles.Perm (List.range (2 * 2)) ∧
     (runEvents sC10 esC10).tiles.count 0 = 1) :=
  ⟨by decide, rfl,
    reachable_boards_are_permutations 2 1 (fun _ _ => 0) [2, 3, 0, 1] sC10 esC10
      (by decide) rfl rfl rfl
      (by
        intro e he
        simp only [esC10, List.mem_cons, List.not_mem_nil, or_false] at he
        rcases he with rfl | rfl | rfl <;> simp [eventValid])⟩

/-! ### The move counter counts accepted moves -/

theorem moveByDirection_cases (s : GameState) (d : Direction) :
    moveByDirection s d = s ∨ ∃ t, moveByDirection s d = handleTileClick s t := by
  cases d with
  | up =>
    unfold moveByDirection
    simp only []
    split
    · exact Or.inl rfl
    · exact Or.inr ⟨_, rfl⟩
  | down =>
    unfold moveByDirection
    simp only []
    split
    · exact Or.inl rfl
    · exact Or.inr ⟨_, rfl⟩
  | left =>
    unfold moveByDirection
    simp only []
    split
    · exact Or.inl rfl
    · exact Or.inr ⟨_, rfl⟩
  | right =>
    unfold moveByDirection
    simp only []
    split
    · exact Or.inl rfl
    · exact Or.inr ⟨_, rfl⟩

theorem stepEvent_moves (s : GameState) (e : Event) :
    (stepEvent s e).moves = s.moves ∨ (stepEvent s e).moves = s.moves + 1 := by
  have hclick : ∀ i, (handleTileClick s i).moves = s.moves ∨
      (handleTileClick s i).moves = s.moves + 1 := by
    intro i
    rcases handleTileClick_cases s i with h | ⟨_, _, _, h2, _, _⟩
    · rw [h]
      exact Or.inl rfl
    · exact Or.inr h2
  cases e with
  | click i => exact hclick i
  | tickEv =>
    obtain ⟨_, _, h3⟩ := tick_fields s
    exact Or.inl h3
  | key k =>
    show (onKey s k).moves = s.moves ∨ (onKey s k).moves = s.moves + 1
    rcases Bool.eq_false_or_eq_true s.running with hrun | hrunF
    case inr =>
      rw [onKey_not_running s k hrunF]
      exact Or.inl rfl
    case inl =>
      have hmove : ∀ d, (moveByDirection s d).moves = s.moves ∨
          (moveByDirection s d).moves = s.moves + 1 := by
        intro d
        rcases moveByDirection_cases s d with h | ⟨t, h⟩
        · rw [h]
          exact Or.inl rfl
        · rw [h]
          exact hclick t
      cases k with
      | other =>
        have hk : onKey s Key.other = s := by simp [onKey, hrun]
        rw [hk]
        exact Or.inl rfl
      | arrowUp =>
        have hk : onKey s Key.arrowUp = moveByDirection s Direction.down := by
          simp [onKey, hrun]
        rw [hk]
        exact hmove Direction.down
      | arrowDown =>
        have hk : onKey s Key.arrowDown = moveByDirection s Direction.up := by
          simp [onKey, hrun]
        rw [hk]
        exact hmove Direction.up
      | arrowLeft =>
        have hk : onKey s Key.arrowLeft = moveByDirection s Direction.right := by
          simp [onKey, hrun]
        rw [hk]
        exact hmove Direction.right
      | arrowRight =>
        have hk : onKey s Key.arrowRight = moveByDirection s Direction.left := by
          simp [onKey, hrun]
        rw [hk]
        exact hmove Direction.left

theorem runEvents_moves (es : List Event) :
    ∀ s : GameState, (runEvents s es).moves = s.moves + acceptedCount s es := by
  induction es with
  | nil =>
    intro s
    simp [runEvents, acceptedCount]
  | cons e es ih =>
    intro s
    show (runEvents (stepEvent s e) es).moves = _
    rw [ih (stepEvent s e)]
    simp only [acceptedCount]
    rcases stepEvent_moves s e with h | h
    · have hne : ((stepEvent s e).moves == s.moves) = true := by
        rw [h]
        simp
      rw [hne, h]
      simp
    · have hne : ((stepEvent s e).moves == s.moves) = false := by
        rw [h]
        simp
      rw [hne, h]
      simp
      omega

/-! ### Claim C6 -/

/-- C6: an accepted move that produces the solved board while running stops
the game, reports a final move count of the pre-move counter plus one — which
equals the number of accepted moves since the last reset — and writes that
count into the best score of the active dimension exactly when no score is
stored there or the stored score is strictly greater; other dimensions keep
their scores. -/
theorem winning_move_stops_and_updates_best (s0 : GameState) (es : List Event)
    (s : GameState) (i : Nat)
    (hm0 : s0.moves = 0)
    (hs : s = runEvents s0 es)
    (hrun : s.running = true)
    (hacc : canSwap s.size i (s.tiles.indexOf 0) = true)
    (hwin : isSolved (swapList s.tiles i (s.tiles.indexOf 0)) = true) :
    (handleTileClick s i).running = false ∧
    (handleTileClick s i).moves = acceptedCount s0 es + 1 ∧
    (handleTileClick s i).message = some (acceptedCount s0 es + 1, s.time) ∧
    (handleTileClick s i).highScores s.size =
      (match s.highScores s.size with
       | none => some (acceptedCount s0 es + 1)
       | some v =>
         if acceptedCount s0 es + 1 < v then some (acceptedCount s0 es + 1)
         else some v) ∧
    (∀ k, k ≠ s.size → (handleTileClick s i).highScores k = s.highScores k) := by
  have hmv : s.moves = acceptedCount s0 es := by
    rw [hs, runEvents_moves es s0, hm0]
    simp
  have hclick := handleTileClick_win s i hrun hacc hwin
  refine ⟨?_, ?_, ?_, ?_, ?_⟩
  · rw [hclick]
    show (onWin s).running = false
    rfl
  · rw [hclick]
    show s.moves + 1 = acceptedCount s0 es + 1
    rw [hmv]
  · rw [hclick]
    show (onWin s).message = some (acceptedCount s0 es + 1, s.time)
    rw [← hmv]
    rfl
  · rw [hclick]
    show (onWin s).highScores s.size = _
    rw [← hmv]
    unfold onWin
    simp only []
    cases hsc : s.highScores s.size with
    | none => simp [hsc]
    | some v =>
      simp only [hsc]
      by_cases hlt : s.moves + 1 < v
      · simp [hlt]
      · simp [hlt, hsc]
  · intro k hk
    rw [hclick]
    show (onWin s).highScores k = s.highScores k
    unfold onWin
    simp only []
    split
    · simp [hk]
    · rfl

/-- A concrete running state one accepted move away from winning, used to
witness C6. -/
def sC6 : GameState :=
  { size := 3, tiles := [1, 2, 3, 4, 5, 6, 7, 0, 8], moves := 0, time := 0,
    running := true, message := none, highScores := fun _ => none }

/-- C6 witness: the winning click on `sC6` reached by the empty event
sequence. -/
theorem winning_move_stops_and_updates_best_witness :
    sC6.moves = 0 ∧ sC6 = runEvents sC6 [] ∧
    ((handleTileClick sC6 8).running = false ∧
     (handleTileClick sC6 8).moves = acceptedCount sC6 [] + 1 ∧
     (handleTileClick sC6 8).message = some (acceptedCount sC6 [] + 1, sC6.time) ∧
     (handleTileClick sC6 8).highScores sC6.size =
       (match sC6.highScores sC6.size with
        | none => some (acceptedCount sC6 [] + 1)
        | some v =>
          if acceptedCount sC6 [] + 1 < v then some (acceptedCount sC6 [] + 1)
          else some v) ∧
     (∀ k, k ≠ sC6.size → (handleTileClick sC6 8).highScores k = sC6.highScores k)) :=
  ⟨rfl, rfl,
    winning_move_stops_and_updates_best sC6 [] sC6 8 rfl rfl rfl (by decide) (by decide)⟩

/-! ### Counting lemmas: the double loop computes the pair count -/

theorem foldl_count (p : Nat → Prop) [DecidablePred p] :
    ∀ (l : List Nat) (acc : Nat),
      l.foldl (fun a j => if p j then a + 1 else a) acc =
        acc + l.countP fun j => decide (p j) := by
  intro l
  induction l with
  | nil =>
    intro acc
    simp
  | cons x xs ih =>
    intro acc
    simp only [List.foldl_cons, List.countP_cons]
    by_cases hx : p x
    · rw [if_pos hx, ih]
      simp [hx]
      omega
    · rw [if_neg hx, ih]
      simp [hx]

theorem foldl_add (g : Nat → Nat) :
    ∀ (l : List Nat) (acc : Nat),
      l.foldl (fun a i => a + g i) acc = acc + (l.map g).sum := by
  intro l
  induction l with
  | nil =>
    intro acc
    simp
  | cons x xs ih =>
    intro acc
    simp only [List.foldl_cons, List.map_cons, List.sum_cons]
    rw [ih]
    omega

theorem sum_map_range (g : Nat → Nat) (m : Nat) :
    ((List.range m).map g).sum = ∑ i ∈ Finset.range m, g i := by
  induction m with
  | zero => simp
  | succ m ih =>
    rw [List.range_succ, List.map_append, List.sum_append, Finset.sum_range_succ, ih]
    simp

theorem countP_upper (f : Nat → Nat → Prop) [inst : ∀ i j, Decidable (f i j)] (i : Nat) :
    ∀ m : Nat, (List.range' (i + 1) (m - (i + 1))).countP (fun j => decide (f i j)) =
      ∑ j ∈ Finset.range m, if i < j ∧ f i j then 1 else 0 := by
  intro m
  induction m with
  | zero => simp
  | succ m ih =>
    by_cases him : i + 1 ≤ m
    · have h1 : m + 1 - (i + 1) = (m - (i + 1)) + 1 := by omega
      rw [h1, List.range'_1_concat, List.countP_append, ih, Finset.sum_range_succ]
      have h2 : i + 1 + (m - (i + 1)) = m := by omega
      rw [h2]
      have h3 : i < m := by omega
      by_cases hf : f i m
      · simp [hf, h3, List.countP_cons]
      · simp [hf, List.countP_cons]
    · have h1 : m + 1 - (i + 1) = 0 := by omega
      rw [h1, Finset.sum_range_succ]
      have h3 : ¬(i < m ∧ f i m) := by
        rintro ⟨h4, _⟩
        omega
      rw [if_neg h3]
      simp only [List.range'_zero, List.countP_nil]
      have h5 : (∑ j ∈ Finset.range m, if i < j ∧ f i j then 1 else 0) = 0 := by
        apply Finset.sum_eq_zero
        intro j hj
        rw [Finset.mem_range] at hj
        rw [if_neg]
        rintro ⟨h6, _⟩
        omega
      omega

theorem double_loop_card (f : Nat → Nat → Prop) [inst : ∀ i j, Decidable (f i j)]
    (m : Nat) :
    (List.range m).foldl (fun inv i =>
      (List.range' (i + 1) (m - (i + 1))).foldl
        (fun inv2 j => if f i j then inv2 + 1 else inv2) inv) 0 =
    (Finset.filter (fun q : Nat × Nat => q.1 < q.2 ∧ f q.1 q.2)
      (Finset.range m ×ˢ Finset.range m)).card := by
  have hfun : (fun inv i => (List.range' (i + 1) (m - (i + 1))).foldl
      (fun inv2 j => if f i j then inv2 + 1 else inv2) inv) =
      (fun inv i => inv + ∑ j ∈ Finset.range m, if i < j ∧ f i j then 1 else 0) := by
    funext acc i
    rw [foldl_count (fun j => f i j) (List.range' (i + 1) (m - (i + 1))) acc,
      countP_upper f i m]
  rw [hfun, foldl_add (fun i => ∑ j ∈ Finset.range m, if i < j ∧ f i j then 1 else 0)
    (List.range m) 0, sum_map_range, Finset.card_filter, Finset.sum_product]
  simp

theorem inversionCount_eq_specInversions (arr : List Nat) :
    inversionCount arr = specInversions arr := by
  unfold inversionCount specInversions
  simp only []
  exact double_loop_card
    (fun i j => (arr.filter (fun v => v != 0)).getD j 0 <
      (arr.filter (fun v => v != 0)).getD i 0)
    (arr.filter (fun v => v != 0)).length

/-! ### Claim C2 -/

/-- C2: `isSolvable` computes the inversion count of the blank-removed
sequence (the number of pairs of positions `i < j` whose values are out of
order) and decides: for odd n, inversions even; for even n, with
`rowBottom = n − rowTop + 1` where `rowTop` is the 1-based row of the blank
from the top, (rowBottom even and inversions odd) or (rowBottom odd and
inversions even). -/
theorem isSolvable_matches_spec_parity (arr : List Nat) (n rowTop rowBottom : Nat)
    (hn : 1 ≤ n) (hperm : arr.Perm (List.range (n * n)))
    (hrt : rowTop = arr.indexOf 0 / n + 1)
    (hrb : rowBottom = n - rowTop + 1) :
    (Odd n → (isSolvable arr n = true ↔ Even (specInversions arr))) ∧
    (Even n → (isSolvable arr n = true ↔
      (Even rowBottom ∧ Odd (specInversions arr)) ∨
      (Odd rowBottom ∧ Even (specInversions arr)))) := by
  unfold isSolvable
  simp only []
  rw [inversionCount_eq_specInversions]
  constructor
  · intro hodd
    have h1 : (n % 2 == 1) = true := by
      rw [Nat.odd_iff] at hodd
      simp [hodd]
    simp only [h1, if_true, beq_iff_eq, Nat.even_iff]
  · intro heven
    have h1 : (n % 2 == 1) = false := by
      rw [Nat.even_iff] at heven
      simp [heven]
    simp only [h1, Bool.false_eq_true, if_false]
    rw [← hrt, ← hrb]
    split
    · rename_i h2
      simp only [beq_iff_eq] at h2
      simp only [beq_iff_eq, Nat.even_iff, Nat.odd_iff]
      omega
    · rename_i h2
      simp only [beq_iff_eq] at h2
      simp only [beq_iff_eq, Nat.even_iff, Nat.odd_iff]
      omega

/-- C2 witness: the generated 2×2 board `[2, 3, 0, 1]` (2 inversions, blank
on row 2 from the top, row 1 from the bottom). -/
theorem isSolvable_matches_spec_parity_witness :
    1 ≤ 2 ∧ ([2, 3, 0, 1] : List Nat).Perm (List.range (2 * 2)) ∧
    ((Odd 2 → (isSolvable [2, 3, 0, 1] 2 = true ↔ Even (specInversions [2, 3, 0, 1]))) ∧
     (Even 2 → (isSolvable [2, 3, 0, 1] 2 = true ↔
       (Even 1 ∧ Odd (specInversions [2, 3, 0, 1])) ∨
       (Odd 1 ∧ Even (specInversions [2, 3, 0, 1]))))) :=
  ⟨by decide, by decide,
    isSolvable_matches_spec_parity [2, 3, 0, 1] 2 2 1 (by decide) (by decide)
      (by decide) (by decide)⟩

/-! ### An inductive inversion count

To reason about how one move changes the inversion count, it helps to have a
head-recursive characterisation of the pair count and lemmas about
concatenations. -/

/-- Head-recursive inversion count: inversions of `x :: xs` are the later
elements smaller than `x` plus the inversions of `xs`. -/
def invList : List Nat → Nat
  | [] => 0
  | x :: xs => xs.countP (fun y => decide (y < x)) + invList xs

/-- Number of out-of-order pairs across the boundary of a concatenation. -/
def crossCount (l1 l2 : List Nat) : Nat :=
  (l1.map (fun x => l2.countP (fun y => decide (y < x)))).sum

theorem invList_append (A B : List Nat) :
    invList (A ++ B) = invList A + invList B + crossCount A B := by
  induction A with
  | nil => simp [invList, crossCount]
  | cons x A ih =>
    have h1 : invList ((x :: A) ++ B) =
        (A ++ B).countP (fun y => decide (y < x)) + invList (A ++ B) := rfl
    have h2 : (A ++ B).countP (fun y => decide (y < x)) =
        A.countP (fun y => decide (y < x)) + B.countP (fun y => decide (y < x)) :=
      List.countP_append _ _ _
    have h3 : invList (x :: A) = A.countP (fun y => decide (y < x)) + invList A := rfl
    have h4 : crossCount (x :: A) B =
        B.countP (fun y => decide (y < x)) + crossCount A B := by
      simp [crossCount]
    rw [h1, h2, ih, h3, h4]
    omega

theorem crossCount_perm_right (A : List Nat) {B B' : List Nat} (h : B.Perm B') :
    crossCount A B = crossCount A B' := by
  unfold crossCount
  congr 1
  apply List.map_congr_left
  intro x _
  exact h.countP_eq _

theorem crossCount_perm_left {A A' : List Nat} (B : List Nat) (h : A.Perm A') :
    crossCount A B = crossCount A' B :=
  (h.map _).sum_eq

theorem countP_range'_take (L : List Nat) (p : Nat → Prop) [DecidablePred p] :
    ∀ (k a : Nat), a + k ≤ L.length →
      (List.range' a k).countP (fun j => decide (p (L.getD j 0))) =
      ((L.drop a).take k).countP (fun y => decide (p y)) := by
  intro k
  induction k with
  | zero =>
    intro a _
    simp
  | succ k ih =>
    intro a ha
    have haL : a < L.length := by omega
    rw [List.range'_succ, List.drop_eq_getElem_cons haL, List.take_succ_cons]
    simp only [List.countP_cons]
    rw [ih (a + 1) (by omega), List.getD_eq_getElem L 0 haL]

theorem inversionCount_eq_invList (arr : List Nat) :
    inversionCount arr = invList (arr.filter (fun v => v != 0)) := by
  unfold inversionCount
  simp only []
  have hfun : (fun inv i =>
      (List.range' (i + 1) ((arr.filter (fun v => v != 0)).length - (i + 1))).foldl
        (fun inv2 j => if (arr.filter (fun v => v != 0)).getD j 0 <
          (arr.filter (fun v => v != 0)).getD i 0 then inv2 + 1 else inv2) inv) =
      (fun inv i => inv + ((arr.filter (fun v => v != 0)).drop (i + 1)).countP
        (fun y => decide (y < (arr.filter (fun v => v != 0)).getD i 0))) := by
    funext acc i
    rw [foldl_count (fun j => (arr.filter (fun v => v != 0)).getD j 0 <
      (arr.filter (fun v => v != 0)).getD i 0) _ acc]
    congr 1
    by_cases hi : i + 1 ≤ (arr.filter (fun v => v != 0)).length
    · rw [countP_range'_take (arr.filter (fun v => v != 0))
        (fun y => y < (arr.filter (fun v => v != 0)).getD i 0) _ (i + 1) (by omega)]
      congr 1
      apply List.take_of_length_le
      rw [List.length_drop]
    · have h0 : (arr.filter (fun v => v != 0)).length - (i + 1) = 0 := by omega
      have hdrop : (arr.filter (fun v => v != 0)).drop (i + 1) = [] :=
        List.drop_eq_nil_of_le (by omega)
      rw [h0, hdrop]
      simp
  rw [hfun, foldl_add]
  simp only [Nat.zero_add]
  generalize arr.filter (fun v => v != 0) = L
  induction L with
  | nil => simp [invList]
  | cons x xs ih =>
    show ((List.range (xs.length + 1)).map _).sum = _
    rw [List.range_succ_eq_map]
    simp only [List.map_cons, List.sum_cons, List.map_map]
    have hcomp : ((fun i => (((x :: xs).drop (i + 1)).countP
        (fun y => decide (y < (x :: xs).getD i 0)))) ∘ Nat.succ) =
        (fun i => ((xs.drop (i + 1)).countP (fun y => decide (y < xs.getD i 0)))) := by
      funext i
      rfl
    rw [hcomp, ih]
    show xs.countP _ + invList xs = invList (x :: xs)
    rfl

theorem specInversions_eq_invList (arr : List Nat) :
    specInversions arr = invList (arr.filter (fun v => v != 0)) := by
  rw [← inversionCount_eq_specInversions, inversionCount_eq_invList]

/-! ### Characterising adjacency -/

theorem canSwap_eq_one_iff (n i j : Nat) :
    canSwap n i j = true ↔
      (((i / n : Nat) : Int) - ((j / n : Nat) : Int)).natAbs +
      (((i % n : Nat) : Int) - ((j % n : Nat) : Int)).natAbs = 1 := by
  unfold canSwap indexToPos
  simp

theorem canSwap_iff (n i j : Nat) (hi : i < n * n) (hj : j < n * n) :
    canSwap n i j = true ↔
      ((i = j + 1 ∧ i / n = j / n) ∨ (j = i + 1 ∧ i / n = j / n) ∨
       i = j + n ∨ j = i + n) := by
  have hn : 0 < n := by
    rcases Nat.eq_zero_or_pos n with h | h
    · rw [h] at hi
      simp at hi
    · exact h
  have ei : n * (i / n) + i % n = i := Nat.div_add_mod i n
  have ej : n * (j / n) + j % n = j := Nat.div_add_mod j n
  rw [canSwap_eq_one_iff]
  constructor
  · intro h
    have hcases : (i / n = j / n ∧ (i % n = j % n + 1 ∨ j % n = i % n + 1)) ∨
        (i % n = j % n ∧ (i / n = j / n + 1 ∨ j / n = i / n + 1)) := by
      omega
    rcases hcases with ⟨hr, hc | hc⟩ | ⟨hc, hr | hr⟩
    · have hp : n * (i / n) = n * (j / n) := by rw [hr]
      exact Or.inl ⟨by omega, hr⟩
    · have hp : n * (i / n) = n * (j / n) := by rw [hr]
      exact Or.inr (Or.inl ⟨by omega, hr⟩)
    · have hp : n * (i / n) = n * (j / n) + n := by rw [hr, Nat.mul_succ]
      exact Or.inr (Or.inr (Or.inl (by omega)))
    · have hp : n * (j / n) = n * (i / n) + n := by rw [hr, Nat.mul_succ]
      exact Or.inr (Or.inr (Or.inr (by omega)))
  · intro h
    rcases h with ⟨h1, h2⟩ | ⟨h1, h2⟩ | h1 | h1
    · have hp : n * (i / n) = n * (j / n) := by rw [h2]
      have ha : i % n = j % n + 1 := by omega
      rw [h2, ha]
      omega
    · have hp : n * (i / n) = n * (j / n) := by rw [h2]
      have ha : j % n = i % n + 1 := by omega
      rw [h2, ha]
      omega
    · subst h1
      rw [Nat.add_div_right j hn, Nat.add_mod_right]
      omega
    · subst h1
      rw [Nat.add_div_right i hn, Nat.add_mod_right]
      omega

/-! ### Decomposing a swap with the blank -/

theorem getD_append_length (X : List Nat) (y : Nat) (R : List Nat) :
    (X ++ y :: R).getD X.length 0 = y := by
  induction X with
  | nil => rfl
  | cons x X ih =>
    simp only [List.cons_append, List.length_cons, List.getD_cons_succ]
    exact ih

theorem set_at_length (X : List Nat) (y z : Nat) (R : List Nat) :
    (X ++ y :: R).set X.length z = X ++ z :: R := by
  induction X with
  | nil => rfl
  | cons x X ih =>
    simp only [List.cons_append, List.length_cons, List.set_cons_succ]
    rw [ih]

theorem decomp_two (l : List Nat) (p q : Nat) (hpq : p < q) (hq : q < l.length) :
    l = l.take p ++ l.getD p 0 :: (((l.drop (p + 1)).take (q - p - 1)) ++
      l.getD q 0 :: l.drop (q + 1)) := by
  have hp : p < l.length := by omega
  have h3 : l.drop q = l.getD q 0 :: l.drop (q + 1) := by
    rw [List.drop_eq_getElem_cons hq, ← List.getD_eq_getElem l 0 hq]
  have h2 : l.drop (p + 1) = (l.drop (p + 1)).take (q - p - 1) ++
      l.getD q 0 :: l.drop (q + 1) := by
    conv_lhs => rw [← List.take_append_drop (q - p - 1) (l.drop (p + 1))]
    rw [List.drop_drop]
    have he : p + 1 + (q - p - 1) = q := by omega
    rw [he, h3]
  have h1 : l.drop p = l.getD p 0 :: (((l.drop (p + 1)).take (q - p - 1)) ++
      l.getD q 0 :: l.drop (q + 1)) := by
    rw [List.drop_eq_getElem_cons hp, ← List.getD_eq_getElem l 0 hp, ← h2]
  conv_lhs => rw [← List.take_append_drop p l, h1]

theorem swapList_concat (T M R : List Nat) (u t : Nat) :
    swapList (T ++ u :: (M ++ t :: R)) (T.length + 1 + M.length) T.length =
      T ++ t :: (M ++ u :: R) := by
  unfold swapList
  have hXlen : (T ++ u :: M).length = T.length + 1 + M.length := by
    simp
    omega
  have hassoc : T ++ u :: (M ++ t :: R) = (T ++ u :: M) ++ t :: R := by simp
  have hgq : (T ++ u :: (M ++ t :: R)).getD (T.length + 1 + M.length) 0 = t := by
    rw [hassoc, ← hXlen]
    exact getD_append_length (T ++ u :: M) t R
  have hgp : (T ++ u :: (M ++ t :: R)).getD T.length 0 = u :=
    getD_append_length T u (M ++ t :: R)
  rw [hgq, hgp]
  have hs1 : (T ++ u :: (M ++ t :: R)).set (T.length + 1 + M.length) u =
      T ++ u :: (M ++ u :: R) := by
    rw [hassoc, ← hXlen, set_at_length (T ++ u :: M) t u R]
    simp
  rw [hs1]
  exact set_at_length T u t (M ++ u :: R)

theorem swapList_decomp (l : List Nat) (p q : Nat) (hpq : p < q) (hq : q < l.length) :
    swapList l q p = l.take p ++ l.getD q 0 :: (((l.drop (p + 1)).take (q - p - 1)) ++
      l.getD p 0 :: l.drop (q + 1)) := by
  have hT : (l.take p).length = p := by
    rw [List.length_take]
    omega
  have hM : ((l.drop (p + 1)).take (q - p - 1)).length = q - p - 1 := by
    rw [List.length_take, List.length_drop]
    omega
  have hdec := decomp_two l p q hpq hq
  have hmain := swapList_concat (l.take p) ((l.drop (p + 1)).take (q - p - 1))
    (l.drop (q + 1)) (l.getD p 0) (l.getD q 0)
  rw [hT, hM, ← hdec] at hmain
  have hidx : p + 1 + (q - p - 1) = q := by omega
  rw [hidx] at hmain
  exact hmain

/-! ### Parity of the inversion change of one swap -/

theorem crossCount_cons_right (A : List Nat) (y : Nat) (B : List Nat) :
    crossCount A (y :: B) = crossCount A B + A.countP (fun x => decide (y < x)) := by
  induction A with
  | nil => rfl
  | cons x A ih =>
    have h1 : crossCount (x :: A) (y :: B) =
        (y :: B).countP (fun z => decide (z < x)) + crossCount A (y :: B) := by
      simp [crossCount]
    have h2 : (y :: B).countP (fun z => decide (z < x)) =
        B.countP (fun z => decide (z < x)) + if y < x then 1 else 0 := by
      rw [List.countP_cons]
      simp
    have h3 : crossCount (x :: A) B =
        B.countP (fun z => decide (z < x)) + crossCount A B := by
      simp [crossCount]
    have h4 : (x :: A).countP (fun z => decide (y < z)) =
        A.countP (fun z => decide (y < z)) + if y < x then 1 else 0 := by
      rw [List.countP_cons]
      simp
    rw [h1, h2, ih, h3, h4]
    omega

theorem countP_lt_gt_length (M : List Nat) (t : Nat) (h : ∀ y ∈ M, y ≠ t) :
    M.countP (fun y => decide (t < y)) + M.countP (fun y => decide (y < t)) =
      M.length := by
  induction M with
  | nil => rfl
  | cons y M ih =>
    have hy : y ≠ t := h y (by simp)
    have ih2 := ih (fun z hz => h z (by simp [hz]))
    rw [List.countP_cons, List.countP_cons, List.length_cons]
    by_cases h1 : t < y
    · have h2 : ¬(y < t) := by omega
      simp only [h1, h2]
      simp
      omega
    · have h2 : y < t := by omega
      simp only [h1, h2]
      simp
      omega

theorem invList_cons (x : Nat) (xs : List Nat) :
    invList (x :: xs) = xs.countP (fun y => decide (y < x)) + invList xs := rfl

theorem invList_swap_parity (T M R : List Nat) (t : Nat)
    (hT : ∀ x ∈ T, x ≠ 0) (hM : ∀ x ∈ M, x ≠ 0) (hR : ∀ x ∈ R, x ≠ 0)
    (ht : t ≠ 0) (htM : ∀ y ∈ M, y ≠ t) :
    (invList ((T ++ 0 :: (M ++ t :: R)).filter (fun v => v != 0)) +
     invList ((T ++ t :: (M ++ 0 :: R)).filter (fun v => v != 0)) + M.length) % 2 = 0 := by
  have hfT : T.filter (fun v => v != 0) = T :=
    List.filter_eq_self.mpr (fun a ha => by simpa using hT a ha)
  have hfM : M.filter (fun v => v != 0) = M :=
    List.filter_eq_self.mpr (fun a ha => by simpa using hM a ha)
  have hfR : R.filter (fun v => v != 0) = R :=
    List.filter_eq_self.mpr (fun a ha => by simpa using hR a ha)
  have hf1 : (T ++ 0 :: (M ++ t :: R)).filter (fun v => v != 0) =
      T ++ (M ++ t :: R) := by
    rw [List.filter_append]
    rw [hfT]
    congr 1
    rw [show ((0 : Nat) :: (M ++ t :: R)).filter (fun v => v != 0) =
      (M ++ t :: R).filter (fun v => v != 0) from by simp]
    rw [List.filter_append, hfM]
    congr 1
    rw [show (t :: R).filter (fun v => v != 0) = t :: R.filter (fun v => v != 0) from
      by simp [ht]]
    rw [hfR]
  have hf2 : (T ++ t :: (M ++ 0 :: R)).filter (fun v => v != 0) =
      T ++ t :: (M ++ R) := by
    rw [List.filter_append, hfT]
    congr 1
    rw [show (t :: (M ++ 0 :: R)).filter (fun v => v != 0) =
      t :: (M ++ 0 :: R).filter (fun v => v != 0) from by simp [ht]]
    rw [List.filter_append, hfM]
    rw [show ((0 : Nat) :: R).filter (fun v => v != 0) =
      R.filter (fun v => v != 0) from by simp]
    rw [hfR]
  rw [hf1, hf2]
  rw [invList_append T (M ++ t :: R), invList_append T (t :: (M ++ R))]
  have hU : invList (M ++ t :: R) = invList M +
      (R.countP (fun y => decide (y < t)) + invList R) +
      (crossCount M R + M.countP (fun x => decide (t < x))) := by
    rw [invList_append M (t :: R), invList_cons, crossCount_cons_right]
  have hV : invList (t :: (M ++ R)) =
      (M.countP (fun y => decide (y < t)) + R.countP (fun y => decide (y < t))) +
      (invList M + invList R + crossCount M R) := by
    rw [invList_cons, List.countP_append, invList_append]
  have hcross : crossCount T (M ++ t :: R) = crossCount T (t :: (M ++ R)) :=
    crossCount_perm_right T List.perm_middle
  have hMt := countP_lt_gt_length M t htM
  rw [hU, hV, hcross]
  omega

/-! ### Locating the blank after a swap -/

theorem indexOf_zero_append (T : List Nat) (X : List Nat) (hT : ∀ x ∈ T, x ≠ 0) :
    (T ++ 0 :: X).indexOf 0 = T.length := by
  induction T with
  | nil => simp [List.indexOf_cons]
  | cons x T ih =>
    have hx : x ≠ 0 := hT x (by simp)
    have ih2 := ih (fun z hz => hT z (by simp [hz]))
    rw [List.cons_append, List.indexOf_cons]
    have hbeq : (x == (0 : Nat)) = false := by simpa using hx
    rw [hbeq]
    simp [ih2]

theorem swapList_comm (l : List Nat) (i j : Nat) (h : i ≠ j) :
    swapList l i j = swapList l j i := by
  unfold swapList
  exact List.set_comm _ _ _ h

theorem nodup_decomp_facts (T M R : List Nat) (t : Nat)
    (hnd : (T ++ 0 :: (M ++ t :: R)).Nodup) :
    (∀ x ∈ T, x ≠ 0) ∧ (∀ x ∈ M, x ≠ 0) ∧ (∀ x ∈ R, x ≠ 0) ∧ t ≠ 0 ∧
      (∀ y ∈ M, y ≠ t) := by
  rw [List.nodup_append] at hnd
  obtain ⟨hT, hrest, hdisj⟩ := hnd
  rw [List.nodup_cons] at hrest
  obtain ⟨h0, hMtR⟩ := hrest
  refine ⟨?_, ?_, ?_, ?_, ?_⟩
  · intro x hx he
    exact hdisj hx (by rw [he]; simp)
  · intro x hx he
    subst he
    exact h0 (by simp [hx])
  · intro x hx he
    subst he
    exact h0 (by simp [hx])
  · intro he
    subst he
    exact h0 (by simp)
  · rw [List.nodup_append] at hMtR
    obtain ⟨_, _, hdisj2⟩ := hMtR
    intro y hy he
    exact hdisj2 hy (by rw [he]; simp)

theorem nodup_decomp_facts2 (T M R : List Nat) (t : Nat)
    (hnd : (T ++ t :: (M ++ 0 :: R)).Nodup) :
    (∀ x ∈ T, x ≠ 0) ∧ (∀ x ∈ M, x ≠ 0) ∧ (∀ x ∈ R, x ≠ 0) ∧ t ≠ 0 ∧
      (∀ y ∈ M, y ≠ t) := by
  rw [List.nodup_append] at hnd
  obtain ⟨hT, hrest, hdisj⟩ := hnd
  rw [List.nodup_cons] at hrest
  obtain ⟨htmem, hMR0⟩ := hrest
  rw [List.nodup_append] at hMR0
  obtain ⟨hM, h0R, hdisj2⟩ := hMR0
  rw [List.nodup_cons] at h0R
  refine ⟨?_, ?_, ?_, ?_, ?_⟩
  · intro x hx he
    exact hdisj hx (by rw [he]; simp)
  · intro x hx he
    subst he
    exact hdisj2 hx (by simp)
  · intro x hx he
    subst he
    exact h0R.1 hx
  · intro he
    subst he
    exact htmem (by simp)
  · intro y hy he
    exact htmem (List.mem_append_left _ (he ▸ hy))

/-! ### One swap with the blank: inversion parity and blank position -/

theorem swap_core_blank_first (b : List Nat) (p q : Nat) (hnd : b.Nodup)
    (hpq : p < q) (hq : q < b.length) (h0 : b.getD p 0 = 0) :
    (invList ((swapList b q p).filter (fun v => v != 0)) +
     invList (b.filter (fun v => v != 0)) + (q - p - 1)) % 2 = 0 ∧
    (swapList b q p).indexOf 0 = q ∧ b.indexOf 0 = p := by
  have hdec := decomp_two b p q hpq hq
  rw [h0] at hdec
  have hdec' := swapList_decomp b p q hpq hq
  rw [h0] at hdec'
  set T := b.take p with hTdef
  set M := (b.drop (p + 1)).take (q - p - 1) with hMdef
  set R := b.drop (q + 1) with hRdef
  set t := b.getD q 0 with htdef
  have hT : T.length = p := by
    rw [hTdef, List.length_take]
    omega
  have hM : M.length = q - p - 1 := by
    rw [hMdef, List.length_take, List.length_drop]
    omega
  obtain ⟨f1, f2, f3, f4, f5⟩ :=
    nodup_decomp_facts T M R t (by rw [← hdec]; exact hnd)
  refine ⟨?_, ?_, ?_⟩
  · have hpar := invList_swap_parity T M R t f1 f2 f3 f4 f5
    rw [← hdec, ← hdec', hM] at hpar
    omega
  · rw [hdec']
    have hassoc : T ++ t :: (M ++ 0 :: R) = (T ++ t :: M) ++ 0 :: R := by simp
    rw [hassoc, indexOf_zero_append (T ++ t :: M) R ?hz]
    case hz =>
      intro x hx
      rcases List.mem_append.1 hx with hx1 | hx2
      · exact f1 x hx1
      · rcases List.mem_cons.1 hx2 with rfl | hx3
        · exact f4
        · exact f2 x hx3
    rw [List.length_append, hT, List.length_cons, hM]
    omega
  · conv_lhs => rw [hdec]
    rw [indexOf_zero_append T _ f1, hT]

theorem swap_core_blank_second (b : List Nat) (p q : Nat) (hnd : b.Nodup)
    (hpq : p < q) (hq : q < b.length) (h0 : b.getD q 0 = 0) :
    (invList ((swapList b q p).filter (fun v => v != 0)) +
     invList (b.filter (fun v => v != 0)) + (q - p - 1)) % 2 = 0 ∧
    (swapList b q p).indexOf 0 = p ∧ b.indexOf 0 = q := by
  have hdec := decomp_two b p q hpq hq
  rw [h0] at hdec
  have hdec' := swapList_decomp b p q hpq hq
  rw [h0] at hdec'
  set T := b.take p with hTdef
  set M := (b.drop (p + 1)).take (q - p - 1) with hMdef
  set R := b.drop (q + 1) with hRdef
  set t := b.getD p 0 with htdef
  have hT : T.length = p := by
    rw [hTdef, List.length_take]
    omega
  have hM : M.length = q - p - 1 := by
    rw [hMdef, List.length_take, List.length_drop]
    omega
  obtain ⟨f1, f2, f3, f4, f5⟩ :=
    nodup_decomp_facts2 T M R t (by rw [← hdec]; exact hnd)
  refine ⟨?_, ?_, ?_⟩
  · have hpar := invList_swap_parity T M R t f1 f2 f3 f4 f5
    rw [← hdec, ← hdec', hM] at hpar
    omega
  · rw [hdec']
    rw [indexOf_zero_append T _ f1, hT]
  · conv_lhs => rw [hdec]
    have hassoc : T ++ t :: (M ++ 0 :: R) = (T ++ t :: M) ++ 0 :: R := by simp
    rw [hassoc, indexOf_zero_append (T ++ t :: M) R ?hz]
    case hz =>
      intro x hx
      rcases List.mem_append.1 hx with hx1 | hx2
      · exact f1 x hx1
      · rcases List.mem_cons.1 hx2 with rfl | hx3
        · exact f4
        · exact f2 x hx3
    rw [List.length_append, hT, List.length_cons, hM]
    omega

/-! ### Necessity of the parity test for reachability -/

theorem isSolvable_true_iff (arr : List Nat) (n : Nat) :
    isSolvable arr n = true ↔
      ((n % 2 = 1 ∧ inversionCount arr % 2 = 0) ∨
       (n % 2 ≠ 1 ∧ (n - (arr.indexOf 0 / n + 1) + 1) % 2 = 0 ∧
         inversionCount arr % 2 = 1) ∨
       (n % 2 ≠ 1 ∧ (n - (arr.indexOf 0 / n + 1) + 1) % 2 ≠ 0 ∧
         inversionCount arr % 2 = 0)) := by
  unfold isSolvable
  simp only []
  by_cases h1 : n % 2 = 1
  · rw [show (n % 2 == 1) = true from by simp [h1]]
    simp [h1]
  · rw [show (n % 2 == 1) = false from by simp [h1]]
    simp only [Bool.false_eq_true, if_false]
    by_cases h2 : (n - (arr.indexOf 0 / n + 1) + 1) % 2 = 0
    · rw [show ((n - (arr.indexOf 0 / n + 1) + 1) % 2 == 0) = true from by simp [h2]]
      simp [h1, h2]
    · rw [show ((n - (arr.indexOf 0 / n + 1) + 1) % 2 == 0) = false from by simp [h2]]
      simp [h1, h2]

theorem makeSolved_split (n : Nat) (hp : 0 < n * n) :
    makeSolved n = (List.range (n * n - 1)).map Nat.succ ++ [0] := by
  have hsq : n * n = (n * n - 1) + 1 := by omega
  have hsplit : makeSolved n =
      (List.range (n * n - 1)).map (fun i => (i + 1) % (n * n)) ++ [0] := by
    rw [makeSolved, hsq, List.range_succ, List.map_append]
    simp [Nat.sub_add_cancel hp]
  have hmap : (List.range (n * n - 1)).map (fun i => (i + 1) % (n * n)) =
      (List.range (n * n - 1)).map Nat.succ := by
    apply List.map_congr_left
    intro i hi
    rw [List.mem_range] at hi
    exact Nat.mod_eq_of_lt (by omega)
  rw [hsplit, hmap]

theorem invList_eq_zero_of_pairwise (l : List Nat) (h : l.Pairwise (· < ·)) :
    invList l = 0 := by
  induction l with
  | nil => rfl
  | cons x xs ih =>
    rw [List.pairwise_cons] at h
    rw [invList_cons]
    have hc : xs.countP (fun y => decide (y < x)) = 0 := by
      rw [List.countP_eq_zero]
      intro a ha
      have := h.1 a ha
      simp only [decide_eq_true_eq]
      omega
    rw [hc, ih h.2]

theorem inversionCount_makeSolved (n : Nat) : inversionCount (makeSolved n) = 0 := by
  rcases Nat.eq_zero_or_pos (n * n) with hz | hp
  · rw [makeSolved, hz]
    rfl
  · rw [inversionCount_eq_invList, makeSolved_split n hp]
    have hfilter : (((List.range (n * n - 1)).map Nat.succ) ++ [0]).filter
        (fun v => v != 0) = (List.range (n * n - 1)).map Nat.succ := by
      rw [List.filter_append]
      rw [List.filter_eq_self.mpr ?hz2]
      case hz2 =>
        intro a ha
        rcases List.mem_map.1 ha with ⟨w, _, rfl⟩
        simp
      simp
    rw [hfilter]
    apply invList_eq_zero_of_pairwise
    exact List.Pairwise.map Nat.succ (fun a b h => Nat.succ_lt_succ h)
      (List.pairwise_lt_range _)

theorem indexOf_makeSolved (n : Nat) (hp : 0 < n * n) :
    (makeSolved n).indexOf 0 = n * n - 1 := by
  rw [makeSolved_split n hp]
  rw [indexOf_zero_append _ _ ?hz]
  case hz =>
    intro x hx
    rcases List.mem_map.1 hx with ⟨w, _, rfl⟩
    simp
  simp

theorem last_cell_div (n : Nat) (hn : 0 < n) : (n * n - 1) / n = n - 1 := by
  have hx : (n - 1) * n + n = n * n := by
    cases n with
    | zero => omega
    | succ m =>
      simp only [Nat.succ_sub_one]
      ring
  have h1 : n * n - 1 = (n - 1) + (n - 1) * n := by omega
  rw [h1, Nat.add_mul_div_right _ _ hn, Nat.div_eq_of_lt (by omega)]
  omega

theorem isSolvable_makeSolved_true (n : Nat) (hn : 1 ≤ n) :
    isSolvable (makeSolved n) n = true := by
  have hp : 0 < n * n := Nat.mul_pos hn hn
  rw [isSolvable_true_iff, inversionCount_makeSolved, indexOf_makeSolved n hp,
    last_cell_div n hn]
  omega

theorem isSolvable_eq_of_parity (n : Nat) (hn : 0 < n) (b b' : List Nat)
    (r r' dd : Nat)
    (hr : b.indexOf 0 / n = r) (hr' : b'.indexOf 0 / n = r')
    (hrb : r < n) (hrb' : r' < n)
    (hI : (inversionCount b' + inversionCount b + dd) % 2 = 0)
    (hcase : (r' = r ∧ dd % 2 = 0) ∨
      ((r' = r + 1 ∨ r = r' + 1) ∧ dd % 2 = (n - 1) % 2)) :
    isSolvable b' n = isSolvable b n := by
  rw [Bool.eq_iff_iff, isSolvable_true_iff b' n, isSolvable_true_iff b n, hr, hr']
  omega

/-- One legal move of the engine: exchange the blank with a cell the click
handler accepts, i.e. an orthogonally adjacent cell. -/
def Move (n : Nat) (b b' : List Nat) : Prop :=
  ∃ i, i < n * n ∧ canSwap n i (b.indexOf 0) = true ∧
    b' = swapList b i (b.indexOf 0)

/-- Boards reachable from the solved board by finitely many legal moves. -/
def ReachableFromSolved (n : Nat) (b : List Nat) : Prop :=
  Relation.ReflTransGen (Move n) (makeSolved n) b

theorem move_preserves_isSolvable (n : Nat) (b b' : List Nat)
    (hperm : b.Perm (List.range (n * n))) (hmv : Move n b b') :
    isSolvable b' n = isSolvable b n := by
  obtain ⟨i, hi, hcs, hb'⟩ := hmv
  have hn : 0 < n := by
    rcases Nat.eq_zero_or_pos n with h | h
    · rw [h] at hi
      simp at hi
    · exact h
  have hlen : b.length = n * n := by rw [hperm.length_eq, List.length_range]
  have hmem : 0 ∈ b := hperm.mem_iff.2 (List.mem_range.2 (Nat.mul_pos hn hn))
  have hnd : b.Nodup := hperm.symm.nodup (List.nodup_range _)
  have hbll : b.indexOf 0 < b.length := List.indexOf_lt_length.2 hmem
  have hbl : b.indexOf 0 < n * n := by omega
  have hb0 : b.getD (b.indexOf 0) 0 = 0 := by
    rw [List.getD_eq_getElem b 0 hbll]
    exact List.getElem_indexOf _
  have hdiv : ∀ k, k < n * n → k / n < n := by
    intro k hk
    exact (Nat.div_lt_iff_lt_mul hn).2 hk
  rw [canSwap_iff n i (b.indexOf 0) hi hbl] at hcs
  rcases hcs with ⟨h1, h2⟩ | ⟨h1, h2⟩ | h1 | h1
  · -- blank at p := b.indexOf 0, tile at q := i = p + 1, same row
    obtain ⟨hpar, hbl', hblp⟩ := swap_core_blank_first b (b.indexOf 0) i hnd
      (by omega) (by omega) hb0
    have hIC : (inversionCount b' + inversionCount b + (i - b.indexOf 0 - 1)) % 2 = 0 := by
      rw [hb', inversionCount_eq_invList, inversionCount_eq_invList]
      exact hpar
    refine isSolvable_eq_of_parity n hn b b' (b.indexOf 0 / n) (i / n)
      (i - b.indexOf 0 - 1) rfl ?_ (hdiv _ hbl) (hdiv _ hi) hIC ?_
    · rw [hb', hbl']
    · exact Or.inl ⟨h2, by omega⟩
  · -- tile at p := i, blank at q := b.indexOf 0 = p + 1, same row
    have hb'2 : b' = swapList b (b.indexOf 0) i := by
      rw [hb', swapList_comm b i (b.indexOf 0) (by omega)]
    obtain ⟨hpar, hbl', hblq⟩ := swap_core_blank_second b i (b.indexOf 0) hnd
      (by omega) (by omega) hb0
    have hIC : (inversionCount b' + inversionCount b + (b.indexOf 0 - i - 1)) % 2 = 0 := by
      rw [hb'2, inversionCount_eq_invList, inversionCount_eq_invList]
      exact hpar
    refine isSolvable_eq_of_parity n hn b b' (b.indexOf 0 / n) (i / n)
      (b.indexOf 0 - i - 1) rfl ?_ (hdiv _ hbl) (hdiv _ hi) hIC ?_
    · rw [hb'2, hbl']
    · exact Or.inl ⟨h2, by omega⟩
  · -- blank at p := b.indexOf 0, tile at q := i = p + n (cell below)
    obtain ⟨hpar, hbl', hblp⟩ := swap_core_blank_first b (b.indexOf 0) i hnd
      (by omega) (by omega) hb0
    have hIC : (inversionCount b' + inversionCount b + (i - b.indexOf 0 - 1)) % 2 = 0 := by
      rw [hb', inversionCount_eq_invList, inversionCount_eq_invList]
      exact hpar
    have hrow : i / n = b.indexOf 0 / n + 1 := by
      rw [h1, Nat.add_div_right _ hn]
    refine isSolvable_eq_of_parity n hn b b' (b.indexOf 0 / n) (i / n)
      (i - b.indexOf 0 - 1) rfl ?_ (hdiv _ hbl) (hdiv _ hi) hIC ?_
    · rw [hb', hbl']
    · exact Or.inr ⟨Or.inl hrow, by omega⟩
  · -- tile at p := i, blank at q := b.indexOf 0 = p + n (blank below)
    have hb'2 : b' = swapList b (b.indexOf 0) i := by
      rw [hb', swapList_comm b i (b.indexOf 0) (by omega)]
    obtain ⟨hpar, hbl', hblq⟩ := swap_core_blank_second b i (b.indexOf 0) hnd
      (by omega) (by omega) hb0
    have hIC : (inversionCount b' + inversionCount b + (b.indexOf 0 - i - 1)) % 2 = 0 := by
      rw [hb'2, inversionCount_eq_invList, inversionCount_eq_invList]
      exact hpar
    have hrow : b.indexOf 0 / n = i / n + 1 := by
      rw [h1, Nat.add_div_right _ hn]
    refine isSolvable_eq_of_parity n hn b b' (b.indexOf 0 / n) (i / n)
      (b.indexOf 0 - i - 1) rfl ?_ (hdiv _ hbl) (hdiv _ hi) hIC ?_
    · rw [hb'2, hbl']
    · exact Or.inr ⟨Or.inr hrow, by omega⟩

/-- The necessity half of the solvability theorem: every board reachable from
the solved board by legal moves is a permutation and satisfies `isSolvable`.
Equivalently, a board on which `isSolvable` returns false cannot be solved.
(The converse — that `isSolvable` boards are always reachable — is the hard
half of the classical 15-puzzle theorem and is not formalised here.) -/
theorem reachable_isSolvable (n : Nat) (hn : 1 ≤ n) (b : List Nat)
    (h : ReachableFromSolved n b) :
    b.Perm (List.range (n * n)) ∧ isSolvable b n = true := by
  induction h with
  | refl => exact ⟨makeSolved_perm_range n, isSolvable_makeSolved_true n hn⟩
  | tail hsteps hmv ih =>
    obtain ⟨hperm, hsolv⟩ := ih
    rename_i c d
    obtain ⟨i, hi, hcs, hb'⟩ := hmv
    have hlen : c.length = n * n := by rw [hperm.length_eq, List.length_range]
    have hmem : 0 ∈ c := hperm.mem_iff.2 (List.mem_range.2 (by
      have : 0 < n := hn
      exact Nat.mul_pos this this))
    constructor
    · rw [hb']
      exact (swapList_perm c i (c.indexOf 0) (by omega)
        (List.indexOf_lt_length.2 hmem)).trans hperm
    · rw [move_preserves_isSolvable n c d hperm ⟨i, hi, hcs, hb'⟩]
      exact hsolv

end SlidingPuzzle
